import Mathlib

/-!
# Verification of the forge-meta-link indexing and retrieval engine

Shallow embedding of the Rust sources under `src-tauri/src/` (database.rs,
parser.rs, image_processing.rs, commands/scan.rs) together with proofs of the
spec claims about them.

Machine strings are embedded as Lean `String`s; where the Rust code works on
UTF-8 bytes (`as_bytes`, byte indices) the embedding works on the UTF-8 byte
sequence (`List Nat`), produced by `strBytes`.  Rust's `to_ascii_lowercase`,
`is_ascii_whitespace`, etc. are embedded by their exact ASCII definitions.
Rust's Unicode-aware `char::is_alphanumeric` / `str::trim` are embedded by
their ASCII restrictions (`Char.isAlphanum`, `String.trim`); the two agree on
all ASCII text, which is the only text the proofs and witnesses evaluate.
-/

set_option maxRecDepth 10000

namespace Forge

/-! ## ASCII / byte-level string utilities shared by the embeddings -/

/-- Rust `u8::to_ascii_lowercase` lifted to `Char`: maps `A`-`Z` to `a`-`z`
and leaves every other character unchanged. -/
def asciiLowerChar (c : Char) : Char :=
  if 'A' ≤ c ∧ c ≤ 'Z' then Char.ofNat (c.toNat + 32) else c

/-- Rust `str::to_ascii_lowercase`. -/
def ascii_lowercase (s : String) : String :=
  String.mk (s.data.map asciiLowerChar)

/-- UTF-8 encoding of a single code point (RFC 3629). -/
def utf8Char (c : Char) : List Nat :=
  let n := c.toNat
  if n < 128 then [n]
  else if n < 2048 then [192 ||| (n >>> 6), 128 ||| (n &&& 63)]
  else if n < 65536 then
    [224 ||| (n >>> 12), 128 ||| ((n >>> 6) &&& 63), 128 ||| (n &&& 63)]
  else
    [240 ||| (n >>> 18), 128 ||| ((n >>> 12) &&& 63),
     128 ||| ((n >>> 6) &&& 63), 128 ||| (n &&& 63)]

/-- The UTF-8 byte sequence of a string (Rust `str::as_bytes`). -/
def strBytes (s : String) : List Nat :=
  s.data.flatMap utf8Char

/-- Rust `str::len` (the byte length). -/
def byteLen (s : String) : Nat := (strBytes s).length

/-- `pat.isPrefixOf l` on byte / char lists, as a boolean. -/
def listIsPrefix {α : Type} [DecidableEq α] : List α → List α → Bool
  | [], _ => true
  | _ :: _, [] => false
  | p :: ps, c :: cs => p = c && listIsPrefix ps cs

/-- Rust `str::contains` (substring anywhere), on lists. -/
def listContainsSub {α : Type} [DecidableEq α] (pat : List α) : List α → Bool
  | [] => listIsPrefix pat []
  | c :: rest => listIsPrefix pat (c :: rest) || listContainsSub pat rest

/-- Rust `str::contains` for strings (byte-level substring search; equivalent
to code-point-level search because UTF-8 is self-synchronizing). -/
def strContains (hay pat : String) : Bool :=
  listContainsSub pat.data hay.data

/-! ## `parser.rs`: `infer_generation_type` (lines 108-160) -/

/-- `parser.rs`: ordered keyword heuristics classifying the raw metadata.
Direct transcription of `infer_generation_type`. -/
def infer_generation_type (raw_metadata : String) : String :=
  let metadata := ascii_lowercase raw_metadata
  let has := fun (p : String) => strContains metadata p
  let is_grid := has "script: x/y/z plot" || has "script: xyz plot" ||
    has "x values:" || has "y values:"
  if is_grid then "grid"
  else
    let is_inpaint := has "inpaint" || has "mask blur" || has "inpaint area" ||
      has "masked content" || has "\"class_type\":\"inpaintmodelconditioning\"" ||
      has "\"class_type\":\"loadimagemask\""
    if is_inpaint then "inpaint"
    else
      let is_upscale := has "upscaler" || has "upscale by" ||
        has "postprocess upscaler" || has "\"class_type\":\"imageupscalewithmodel\""
      if is_upscale then "upscale"
      else
        let has_img2img_markers := has "img2img" || has "denoising strength" ||
          has "init image" || has "\"class_type\":\"loadimage\""
        if has_img2img_markers then
          let has_hires_markers := has "hires upscale" || has "hires steps" ||
            has "hires upscaler" || has "hires resize"
          if has_hires_markers && !(has "init image") && !(has "img2img") &&
              !is_inpaint then "txt2img"
          else "img2img"
        else if metadata.trim = "" then "unknown"
        else "txt2img"

/-! ## Data model (`database.rs` schema and record types)

The `images`, `tags` and `image_tags` tables are embedded as lists of rows,
ordered by insertion (SQLite rowid order).  `AUTOINCREMENT` primary keys are
embedded by the `nextImageId` / `nextTagId` counters. -/

/-- `parser.rs` `GenerationParams` (numeric-ish fields kept as strings, as in
the source).  `extra_params` is kept as an association list; the source
serializes it to a JSON string before storing, which is injective on the
map's contents and therefore elided. -/
structure GenerationParams where
  prompt : String
  negative_prompt : String
  steps : Option String
  sampler : Option String
  schedule_type : Option String
  cfg_scale : Option String
  seed : Option String
  width : Option Nat
  height : Option Nat
  model_hash : Option String
  model_name : Option String
  generation_type : Option String
  extra_params : List (String × String)
  raw_metadata : String
deriving DecidableEq

/-- `database.rs` `BulkRecord` (input of `bulk_upsert_with_tags`). -/
structure BulkRecord where
  filepath : String
  filename : String
  directory : String
  params : GenerationParams
  file_mtime : Option Int
  file_size : Option Int
  quick_hash : Option String
  tags : List String
deriving DecidableEq

/-- One row of the `images` table (schema of `init_schema`, database.rs). -/
structure ImageRow where
  id : Nat
  filepath : String
  filename : String
  directory : String
  prompt : String
  negative_prompt : String
  steps : Option String
  sampler : Option String
  schedule_type : Option String
  cfg_scale : Option String
  seed : Option String
  width : Option Nat
  height : Option Nat
  model_hash : Option String
  model_name : Option String
  generation_type : Option String
  raw_metadata : String
  extra_params : List (String × String)
  file_mtime : Option Int
  file_size : Option Int
  quick_hash : Option String
deriving DecidableEq

/-- The SQLite database state: `images`, `tags` (id, tag) and `image_tags`
(image_id, tag_id) tables plus the AUTOINCREMENT counters. -/
structure Db where
  images : List ImageRow
  tags : List (Nat × String)
  image_tags : List (Nat × Nat)
  nextImageId : Nat
  nextTagId : Nat
deriving DecidableEq

/-- The row written for a `BulkRecord` by the upsert statement of
`bulk_upsert_with_tags` (all columns set from the record; `generation_type`
falls back to `infer_generation_type` exactly as in the source). -/
def rowOfRecord (id : Nat) (r : BulkRecord) : ImageRow :=
  { id := id
    filepath := r.filepath
    filename := r.filename
    directory := r.directory
    prompt := r.params.prompt
    negative_prompt := r.params.negative_prompt
    steps := r.params.steps
    sampler := r.params.sampler
    schedule_type := r.params.schedule_type
    cfg_scale := r.params.cfg_scale
    seed := r.params.seed
    width := r.params.width
    height := r.params.height
    model_hash := r.params.model_hash
    model_name := r.params.model_name
    generation_type :=
      some (r.params.generation_type.getD (infer_generation_type r.params.raw_metadata))
    raw_metadata := r.params.raw_metadata
    extra_params := r.params.extra_params
    file_mtime := r.file_mtime
    file_size := r.file_size
    quick_hash := r.quick_hash }

/-! ## `database.rs`: `bulk_upsert_with_tags` (lines 389-500)

Each prepared SQL statement of the transaction is embedded as one function on
`Db`. -/

/-- The `INSERT ... ON CONFLICT(filepath) DO UPDATE ... RETURNING id`
statement: replaces the (unique) conflicting row in place, keeping its rowid,
or appends a fresh row.  Returns the id and the new table. -/
def upsert_image_stmt (db : Db) (r : BulkRecord) : Nat × Db :=
  match db.images.find? (fun row => row.filepath = r.filepath) with
  | some row =>
      (row.id,
        { db with
            images := db.images.map
              (fun q => if q.filepath = r.filepath then rowOfRecord q.id r else q) })
  | none =>
      (db.nextImageId,
        { db with
            images := db.images ++ [rowOfRecord db.nextImageId r]
            nextImageId := db.nextImageId + 1 })

/-- The `DELETE FROM image_tags WHERE image_id = ?` statement. -/
def delete_image_tags_stmt (db : Db) (image_id : Nat) : Db :=
  { db with image_tags := db.image_tags.filter (fun p => p.1 ≠ image_id) }

/-- The `INSERT INTO tags ... ON CONFLICT(tag) DO UPDATE SET tag=excluded.tag
RETURNING id` statement: returns the existing id of the (unique) tag row or
inserts a fresh one. -/
def upsert_tag_stmt (db : Db) (tag : String) : Nat × Db :=
  match db.tags.find? (fun t => t.2 = tag) with
  | some t => (t.1, db)
  | none =>
      (db.nextTagId,
        { db with
            tags := db.tags ++ [(db.nextTagId, tag)]
            nextTagId := db.nextTagId + 1 })

/-- The `INSERT OR IGNORE INTO image_tags(image_id, tag_id)` statement
(ignores a duplicate of the primary key `(image_id, tag_id)`). -/
def insert_image_tag_stmt (db : Db) (image_id tag_id : Nat) : Db :=
  if (image_id, tag_id) ∈ db.image_tags then db
  else { db with image_tags := db.image_tags ++ [(image_id, tag_id)] }

/-- The per-record tag loop of `bulk_upsert_with_tags`: normalize
(`trim` + `to_ascii_lowercase`), skip empty or already-seen tags, resolve the
tag id through the per-transaction `tag_id_cache`, and link it.  `seen` is the
record-local `seen_tags` set; `cache` the transaction's name-to-id cache. -/
def insert_record_tags (image_id : Nat) :
    List String → Db → List (String × Nat) → List String → Db × List (String × Nat)
  | [], db, cache, _seen => (db, cache)
  | tag :: rest, db, cache, seen =>
    let normalized := ascii_lowercase tag.trim
    if normalized = "" ∨ normalized ∈ seen then
      insert_record_tags image_id rest db cache seen
    else
      match cache.find? (fun e => e.1 = normalized) with
      | some e =>
          insert_record_tags image_id rest
            (insert_image_tag_stmt db image_id e.2) cache (normalized :: seen)
      | none =>
          let (tag_id, db') := upsert_tag_stmt db normalized
          insert_record_tags image_id rest
            (insert_image_tag_stmt db' image_id tag_id)
            (cache ++ [(normalized, tag_id)]) (normalized :: seen)

/-- The body of the `for record in records` loop: upsert the image row,
delete all of its tag links, re-insert the record's normalized tags. -/
def bulk_upsert_record (db : Db) (cache : List (String × Nat)) (r : BulkRecord) :
    Db × List (String × Nat) :=
  let (id, db1) := upsert_image_stmt db r
  let db2 := delete_image_tags_stmt db1 id
  insert_record_tags id r.tags db2 cache []

/-- The fold of the record loop, threading the database, the tag-id cache and
the running `count`. -/
def bulk_upsert_fold : List BulkRecord → Db → List (String × Nat) → Nat →
    Db × List (String × Nat) × Nat
  | [], db, cache, count => (db, cache, count)
  | r :: rest, db, cache, count =>
    let (db', cache') := bulk_upsert_record db cache r
    bulk_upsert_fold rest db' cache' (count + 1)

/-- `Database::bulk_upsert_with_tags`: whole-batch transaction; returns the
number of processed records and the committed database. -/
def bulk_upsert_with_tags (db : Db) (records : List BulkRecord) : Nat × Db :=
  if records.isEmpty then (0, db)
  else
    let (db', _cache, count) := bulk_upsert_fold records db [] 0
    (count, db')

/-! ### Well-formedness invariants of a database state -/

/-- Invariants maintained by the schema ( `UNIQUE` and `PRIMARY KEY`
constraints, AUTOINCREMENT counters, foreign keys into `tags`). -/
structure Db.WF (db : Db) : Prop where
  imageIdsNodup : (db.images.map ImageRow.id).Nodup
  filepathsNodup : (db.images.map ImageRow.filepath).Nodup
  imageIdsLt : ∀ row ∈ db.images, row.id < db.nextImageId
  tagIdsNodup : (db.tags.map Prod.fst).Nodup
  tagNamesNodup : (db.tags.map Prod.snd).Nodup
  tagIdsLt : ∀ t ∈ db.tags, t.1 < db.nextTagId
  linkTagIdsValid : ∀ p ∈ db.image_tags, ∃ t ∈ db.tags, t.1 = p.2

/-- The per-transaction tag cache is consistent with the `tags` table. -/
def CacheOK (db : Db) (cache : List (String × Nat)) : Prop :=
  ∀ e ∈ cache, (e.2, e.1) ∈ db.tags

/-- "Image `image_id` is associated with tag name `name`" (the join
`image_tags ⋈ tags` that every tag filter in the source queries). -/
def taggedWith (db : Db) (image_id : Nat) (name : String) : Prop :=
  ∃ tag_id, (image_id, tag_id) ∈ db.image_tags ∧ (tag_id, name) ∈ db.tags

/-- The normalized, non-empty tag multiset supplied by a record; its
membership is the deduplicated normalized tag set of the claim. -/
def normalizedTags (tags : List String) : List String :=
  (tags.map (fun t => ascii_lowercase t.trim)).filter (fun s => s ≠ "")

/-! ### Basic lemmas about the embedded SQL statements -/

theorem nodup_fst_inj {α β : Type} {l : List (α × β)} {a : α} {b c : β}
    (h : (l.map Prod.fst).Nodup) (h1 : (a, b) ∈ l) (h2 : (a, c) ∈ l) : b = c := by
  induction l with
  | nil => cases h1
  | cons hd tl ih =>
    rcases List.mem_cons.mp h1 with rfl | h1'
    · rcases List.mem_cons.mp h2 with heq | h2'
      · exact congrArg Prod.snd heq.symm
      · exact absurd (List.mem_map_of_mem Prod.fst h2') (by simpa using (List.nodup_cons.mp h).1)
    · rcases List.mem_cons.mp h2 with rfl | h2'
      · exact absurd (List.mem_map_of_mem Prod.fst h1') (by simpa using (List.nodup_cons.mp h).1)
      · exact ih (List.nodup_cons.mp h).2 h1' h2'

@[simp] theorem iit_images (db : Db) (i t : Nat) :
    (insert_image_tag_stmt db i t).images = db.images := by
  simp only [insert_image_tag_stmt]; split <;> rfl

@[simp] theorem iit_tags (db : Db) (i t : Nat) :
    (insert_image_tag_stmt db i t).tags = db.tags := by
  simp only [insert_image_tag_stmt]; split <;> rfl

@[simp] theorem iit_nextImageId (db : Db) (i t : Nat) :
    (insert_image_tag_stmt db i t).nextImageId = db.nextImageId := by
  simp only [insert_image_tag_stmt]; split <;> rfl

@[simp] theorem iit_nextTagId (db : Db) (i t : Nat) :
    (insert_image_tag_stmt db i t).nextTagId = db.nextTagId := by
  simp only [insert_image_tag_stmt]; split <;> rfl

theorem iit_mem {db : Db} {i t : Nat} {p : Nat × Nat} :
    p ∈ (insert_image_tag_stmt db i t).image_tags ↔ p ∈ db.image_tags ∨ p = (i, t) := by
  simp only [insert_image_tag_stmt]
  split
  · rename_i h
    constructor
    · exact Or.inl
    · rintro (hp | rfl)
      · exact hp
      · exact h
  · simp

theorem iit_wf {db : Db} {i t : Nat} (hwf : Db.WF db)
    (ht : ∃ tg ∈ db.tags, tg.1 = t) : Db.WF (insert_image_tag_stmt db i t) := by
  refine ⟨?_, ?_, ?_, ?_, ?_, ?_, ?_⟩ <;> simp only [iit_images, iit_tags,
    iit_nextImageId, iit_nextTagId]
  · exact hwf.imageIdsNodup
  · exact hwf.filepathsNodup
  · exact hwf.imageIdsLt
  · exact hwf.tagIdsNodup
  · exact hwf.tagNamesNodup
  · exact hwf.tagIdsLt
  · intro p hp
    rcases iit_mem.mp hp with hp' | rfl
    · exact hwf.linkTagIdsValid p hp'
    · exact ht

theorem iit_tagged_other {db : Db} {i t iid : Nat} (hne : iid ≠ i) (name : String) :
    taggedWith (insert_image_tag_stmt db i t) iid name ↔ taggedWith db iid name := by
  constructor
  · rintro ⟨tid, hlink, htag⟩
    rcases iit_mem.mp hlink with hl | heq
    · exact ⟨tid, hl, by simpa using htag⟩
    · exact absurd (congrArg Prod.fst heq) (by simpa using hne)
  · rintro ⟨tid, hlink, htag⟩
    exact ⟨tid, iit_mem.mpr (Or.inl hlink), by simpa using htag⟩

theorem iit_tagged_self {db : Db} {i t : Nat} {nm : String}
    (hnodup : (db.tags.map Prod.fst).Nodup) (ht : (t, nm) ∈ db.tags) (name : String) :
    taggedWith (insert_image_tag_stmt db i t) i name ↔
      taggedWith db i name ∨ name = nm := by
  constructor
  · rintro ⟨tid, hlink, htag⟩
    rw [iit_tags] at htag
    rcases iit_mem.mp hlink with hl | heq
    · exact Or.inl ⟨tid, hl, htag⟩
    · have : tid = t := congrArg Prod.snd heq
      subst this
      exact Or.inr (nodup_fst_inj hnodup htag ht)
  · rintro (⟨tid, hlink, htag⟩ | rfl)
    · exact ⟨tid, iit_mem.mpr (Or.inl hlink), by simpa using htag⟩
    · exact ⟨t, iit_mem.mpr (Or.inr rfl), by simpa using ht⟩

@[simp] theorem uts_images (db : Db) (nm : String) :
    (upsert_tag_stmt db nm).2.images = db.images := by
  simp only [upsert_tag_stmt]; cases db.tags.find? (fun t => t.2 = nm) <;> rfl

@[simp] theorem uts_image_tags (db : Db) (nm : String) :
    (upsert_tag_stmt db nm).2.image_tags = db.image_tags := by
  simp only [upsert_tag_stmt]; cases db.tags.find? (fun t => t.2 = nm) <;> rfl

@[simp] theorem uts_nextImageId (db : Db) (nm : String) :
    (upsert_tag_stmt db nm).2.nextImageId = db.nextImageId := by
  simp only [upsert_tag_stmt]; cases db.tags.find? (fun t => t.2 = nm) <;> rfl

theorem uts_fst_mem (db : Db) (nm : String) :
    ((upsert_tag_stmt db nm).1, nm) ∈ (upsert_tag_stmt db nm).2.tags := by
  simp only [upsert_tag_stmt]
  cases hf : db.tags.find? (fun t => t.2 = nm) with
  | none => simp
  | some t =>
    have hmem := List.mem_of_find?_eq_some hf
    have hpred := List.find?_some hf
    simp only [decide_eq_true_eq] at hpred
    simpa [← hpred] using hmem

theorem uts_tags_subset (db : Db) (nm : String) :
    db.tags ⊆ (upsert_tag_stmt db nm).2.tags := by
  simp only [upsert_tag_stmt]
  cases db.tags.find? (fun t => t.2 = nm) with
  | none => intro x hx; simp [hx]
  | some t => exact fun x hx => hx

theorem uts_tags_mem {db : Db} {nm : String} {t' : Nat × String}
    (h : t' ∈ (upsert_tag_stmt db nm).2.tags) :
    t' ∈ db.tags ∨ t' = (db.nextTagId, nm) := by
  revert h
  simp only [upsert_tag_stmt]
  cases db.tags.find? (fun t => t.2 = nm) with
  | none => intro h; simpa using h
  | some t => exact Or.inl

theorem uts_wf {db : Db} {nm : String} (hwf : Db.WF db) :
    Db.WF (upsert_tag_stmt db nm).2 := by
  simp only [upsert_tag_stmt]
  cases hf : db.tags.find? (fun t => t.2 = nm) with
  | some t => exact hwf
  | none =>
    have hnone : ∀ t ∈ db.tags, t.2 ≠ nm := by
      intro t ht
      have := List.find?_eq_none.mp hf t ht
      simpa using this
    refine ⟨hwf.imageIdsNodup, hwf.filepathsNodup, hwf.imageIdsLt, ?_, ?_, ?_, ?_⟩
    · rw [List.map_append, List.nodup_append]
      refine ⟨hwf.tagIdsNodup, by simp, ?_⟩
      intro x hx
      simp only [List.map_cons, List.map_nil, List.mem_singleton]
      rintro rfl
      rcases List.mem_map.mp hx with ⟨t, ht, hid⟩
      exact absurd (hid ▸ hwf.tagIdsLt t ht) (lt_irrefl _)
    · rw [List.map_append, List.nodup_append]
      refine ⟨hwf.tagNamesNodup, by simp, ?_⟩
      intro x hx
      simp only [List.map_cons, List.map_nil, List.mem_singleton]
      rintro rfl
      rcases List.mem_map.mp hx with ⟨t, ht, hnm⟩
      exact hnone t ht hnm
    · intro t ht
      rcases List.mem_append.mp ht with ht' | ht'
      · exact lt_trans (hwf.tagIdsLt t ht') (Nat.lt_succ_self _)
      · simp only [List.mem_singleton] at ht'
        subst ht'
        exact Nat.lt_succ_self _
    · intro p hp
      rcases hwf.linkTagIdsValid p hp with ⟨t, ht, hid⟩
      exact ⟨t, List.mem_append.mpr (Or.inl ht), hid⟩

theorem uts_tagged {db : Db} {nm : String} (hwf : Db.WF db) (iid : Nat) (name : String) :
    taggedWith (upsert_tag_stmt db nm).2 iid name ↔ taggedWith db iid name := by
  constructor
  · rintro ⟨tid, hlink, htag⟩
    rw [uts_image_tags] at hlink
    rcases uts_tags_mem htag with ht | heq
    · exact ⟨tid, hlink, ht⟩
    · exfalso
      have htid : tid = db.nextTagId := congrArg Prod.fst heq
      rcases hwf.linkTagIdsValid _ hlink with ⟨t, ht, hid⟩
      have := hwf.tagIdsLt t ht
      omega
  · rintro ⟨tid, hlink, htag⟩
    exact ⟨tid, by simpa using hlink, uts_tags_subset db nm htag⟩

theorem normalizedTags_cons (tag : String) (rest : List String) (name : String) :
    name ∈ normalizedTags (tag :: rest) ↔
      (name = ascii_lowercase tag.trim ∧ ascii_lowercase tag.trim ≠ "") ∨
        name ∈ normalizedTags rest := by
  simp only [normalizedTags, List.map_cons, List.filter_cons]
  split
  · rename_i h
    simp only [List.mem_cons]
    constructor
    · rintro (rfl | h')
      · exact Or.inl ⟨rfl, by simpa using h⟩
      · exact Or.inr h'
    · rintro (⟨rfl, _⟩ | h')
      · exact Or.inl rfl
      · exact Or.inr h'
  · rename_i h
    simp only [decide_eq_true_eq, not_not] at h
    constructor
    · exact Or.inr
    · rintro (⟨rfl, hne⟩ | h')
      · exact absurd h hne
      · exact h'

/-- Full specification of the per-record tag loop: it preserves the
well-formedness invariants, the cache consistency, the `images` table and the
image counter; after it runs, `image_id` is associated with exactly the names
it was associated with before plus the record's normalized tags not yet in
`seen`; and the associations of every other image are untouched. -/
theorem irt_spec (image_id : Nat) (tags : List String) :
    ∀ db cache seen, Db.WF db → CacheOK db cache →
      Db.WF (insert_record_tags image_id tags db cache seen).1 ∧
      CacheOK (insert_record_tags image_id tags db cache seen).1
        (insert_record_tags image_id tags db cache seen).2 ∧
      (insert_record_tags image_id tags db cache seen).1.images = db.images ∧
      (insert_record_tags image_id tags db cache seen).1.nextImageId = db.nextImageId ∧
      (∀ name, taggedWith (insert_record_tags image_id tags db cache seen).1 image_id name ↔
        taggedWith db image_id name ∨ (name ∈ normalizedTags tags ∧ name ∉ seen)) ∧
      (∀ iid name, iid ≠ image_id →
        (taggedWith (insert_record_tags image_id tags db cache seen).1 iid name ↔
          taggedWith db iid name)) := by
  induction tags with
  | nil =>
    intro db cache seen hwf hcache
    refine ⟨hwf, hcache, rfl, rfl, ?_, fun _ _ _ => Iff.rfl⟩
    intro name
    simp [normalizedTags, insert_record_tags]
  | cons tag rest ih =>
    intro db cache seen hwf hcache
    simp only [insert_record_tags]
    split
    · -- skipped: empty after normalization or already seen for this record
      rename_i hskip
      obtain ⟨h1, h2, h3, h4, h5, h6⟩ := ih db cache seen hwf hcache
      refine ⟨h1, h2, h3, h4, ?_, h6⟩
      intro name
      rw [h5 name, normalizedTags_cons]
      rcases hskip with hempty | hseen
      · constructor
        · rintro (h | ⟨hm, hs⟩)
          · exact Or.inl h
          · exact Or.inr ⟨Or.inr hm, hs⟩
        · rintro (h | ⟨(⟨rfl, hne⟩ | hm), hs⟩)
          · exact Or.inl h
          · exact absurd hempty hne
          · exact Or.inr ⟨hm, hs⟩
      · constructor
        · rintro (h | ⟨hm, hs⟩)
          · exact Or.inl h
          · exact Or.inr ⟨Or.inr hm, hs⟩
        · rintro (h | ⟨(⟨rfl, _⟩ | hm), hs⟩)
          · exact Or.inl h
          · exact absurd hseen hs
          · exact Or.inr ⟨hm, hs⟩
    · -- inserted: resolve the tag id (cache hit or `upsert_tag_stmt`), link it
      rename_i hkeep
      push_neg at hkeep
      obtain ⟨hne, hnotseen⟩ := hkeep
      cases hf : cache.find? (fun e => e.1 = ascii_lowercase tag.trim) with
      | some e =>
        have he_mem : e ∈ cache := List.mem_of_find?_eq_some hf
        have he_name : e.1 = ascii_lowercase tag.trim := by
          have := List.find?_some hf
          simpa using this
        have he_tag : (e.2, ascii_lowercase tag.trim) ∈ db.tags := by
          have := hcache e he_mem
          rwa [he_name] at this
        have hwf1 : Db.WF (insert_image_tag_stmt db image_id e.2) :=
          iit_wf hwf ⟨(e.2, ascii_lowercase tag.trim), he_tag, rfl⟩
        have hcache1 : CacheOK (insert_image_tag_stmt db image_id e.2) cache := by
          intro x hx; rw [iit_tags]; exact hcache x hx
        obtain ⟨h1, h2, h3, h4, h5, h6⟩ :=
          ih (insert_image_tag_stmt db image_id e.2) cache
            (ascii_lowercase tag.trim :: seen) hwf1 hcache1
        refine ⟨h1, h2, by rw [h3, iit_images], by rw [h4, iit_nextImageId], ?_, ?_⟩
        · intro name
          rw [h5 name, iit_tagged_self hwf.tagIdsNodup he_tag name, normalizedTags_cons]
          by_cases hname : name = ascii_lowercase tag.trim
          · subst hname
            simp [hne, hnotseen]
          · constructor
            · rintro ((h | h) | ⟨hm, hs⟩)
              · exact Or.inl h
              · exact absurd h hname
              · refine Or.inr ⟨Or.inr hm, ?_⟩
                simp only [List.mem_cons, not_or] at hs
                exact hs.2
            · rintro (h | ⟨(⟨h, _⟩ | hm), hs⟩)
              · exact Or.inl (Or.inl h)
              · exact absurd h hname
              · exact Or.inr ⟨hm, by simp [hname, hs]⟩
        · intro iid name hiid
          rw [h6 iid name hiid, iit_tagged_other hiid]
      | none =>
        rcases hud : upsert_tag_stmt db (ascii_lowercase tag.trim) with ⟨tag_id, db'⟩
        have hfst : (upsert_tag_stmt db (ascii_lowercase tag.trim)).1 = tag_id := by
          rw [hud]
        have hsnd : (upsert_tag_stmt db (ascii_lowercase tag.trim)).2 = db' := by
          rw [hud]
        have htag' : (tag_id, ascii_lowercase tag.trim) ∈ db'.tags := by
          have := uts_fst_mem db (ascii_lowercase tag.trim)
          rwa [hfst, hsnd] at this
        have hwfdb' : Db.WF db' := by
          have := @uts_wf db (ascii_lowercase tag.trim) hwf
          rwa [hsnd] at this
        have himg' : db'.images = db.images := by
          have := uts_images db (ascii_lowercase tag.trim); rwa [hsnd] at this
        have hnii' : db'.nextImageId = db.nextImageId := by
          have := uts_nextImageId db (ascii_lowercase tag.trim); rwa [hsnd] at this
        have htagged' : ∀ iid name, taggedWith db' iid name ↔ taggedWith db iid name := by
          intro iid name
          have := @uts_tagged db (ascii_lowercase tag.trim) hwf iid name
          rwa [hsnd] at this
        have hsub' : db.tags ⊆ db'.tags := by
          have := uts_tags_subset db (ascii_lowercase tag.trim); rwa [hsnd] at this
        have hwf1 : Db.WF (insert_image_tag_stmt db' image_id tag_id) :=
          iit_wf hwfdb' ⟨(tag_id, ascii_lowercase tag.trim), htag', rfl⟩
        have hcache1 : CacheOK (insert_image_tag_stmt db' image_id tag_id)
            (cache ++ [(ascii_lowercase tag.trim, tag_id)]) := by
          intro x hx
          rw [iit_tags]
          rcases List.mem_append.mp hx with hx' | hx'
          · exact hsub' (hcache x hx')
          · simp only [List.mem_singleton] at hx'
            subst hx'
            exact htag'
        obtain ⟨h1, h2, h3, h4, h5, h6⟩ :=
          ih (insert_image_tag_stmt db' image_id tag_id)
            (cache ++ [(ascii_lowercase tag.trim, tag_id)])
            (ascii_lowercase tag.trim :: seen) hwf1 hcache1
        refine ⟨h1, h2, by rw [h3, iit_images, himg'], by rw [h4, iit_nextImageId, hnii'], ?_, ?_⟩
        · intro name
          rw [h5 name, iit_tagged_self hwfdb'.tagIdsNodup htag' name,
            htagged' image_id name, normalizedTags_cons]
          by_cases hname : name = ascii_lowercase tag.trim
          · subst hname
            simp [hne, hnotseen]
          · constructor
            · rintro ((h | h) | ⟨hm, hs⟩)
              · exact Or.inl h
              · exact absurd h hname
              · refine Or.inr ⟨Or.inr hm, ?_⟩
                simp only [List.mem_cons, not_or] at hs
                exact hs.2
            · rintro (h | ⟨(⟨h, _⟩ | hm), hs⟩)
              · exact Or.inl (Or.inl h)
              · exact absurd h hname
              · exact Or.inr ⟨hm, by simp [hname, hs]⟩
        · intro iid name hiid
          rw [h6 iid name hiid, iit_tagged_other hiid, htagged' iid name]

@[simp] theorem rowOfRecord_id (id : Nat) (r : BulkRecord) : (rowOfRecord id r).id = id := rfl

@[simp] theorem rowOfRecord_filepath (id : Nat) (r : BulkRecord) :
    (rowOfRecord id r).filepath = r.filepath := rfl

/-- The in-place update applied to the `images` table when the filepath
conflicts. -/
def updImages (db : Db) (r : BulkRecord) : List ImageRow :=
  db.images.map (fun q => if q.filepath = r.filepath then rowOfRecord q.id r else q)

theorem updImages_map_id (db : Db) (r : BulkRecord) :
    (updImages db r).map ImageRow.id = db.images.map ImageRow.id := by
  simp only [updImages, List.map_map]
  apply List.map_congr_left
  intro q _
  by_cases h : q.filepath = r.filepath <;> simp [h]

theorem updImages_map_filepath (db : Db) (r : BulkRecord) :
    (updImages db r).map ImageRow.filepath = db.images.map ImageRow.filepath := by
  simp only [updImages, List.map_map]
  apply List.map_congr_left
  intro q _
  by_cases h : q.filepath = r.filepath <;> simp [h]

theorem updImages_mem_of_ne {db : Db} {r : BulkRecord} {q : ImageRow}
    (hq : q ∈ db.images) (hne : q.filepath ≠ r.filepath) : q ∈ updImages db r :=
  List.mem_map.mpr ⟨q, hq, by simp [hne]⟩

theorem updImages_mem_updated {db : Db} {r : BulkRecord} {q : ImageRow}
    (hq : q ∈ db.images) (heq : q.filepath = r.filepath) :
    rowOfRecord q.id r ∈ updImages db r :=
  List.mem_map.mpr ⟨q, hq, by simp [heq]⟩

theorem updImages_provenance {db : Db} {r : BulkRecord} {x : ImageRow}
    (hx : x ∈ updImages db r) :
    ∃ q ∈ db.images, x = if q.filepath = r.filepath then rowOfRecord q.id r else q := by
  rcases List.mem_map.mp hx with ⟨q, hq, hfx⟩
  exact ⟨q, hq, hfx.symm⟩

theorem uis_new {db : Db} {r : BulkRecord}
    (hnew : ∀ row ∈ db.images, row.filepath ≠ r.filepath) :
    upsert_image_stmt db r =
      (db.nextImageId,
        { db with
            images := db.images ++ [rowOfRecord db.nextImageId r]
            nextImageId := db.nextImageId + 1 }) := by
  unfold upsert_image_stmt
  rw [List.find?_eq_none.mpr]
  intro row hrow
  simpa using hnew row hrow

theorem uis_found {db : Db} {r : BulkRecord} {row : ImageRow}
    (h : db.images.find? (fun q => q.filepath = r.filepath) = some row) :
    upsert_image_stmt db r = (row.id, { db with images := updImages db r }) := by
  unfold upsert_image_stmt
  rw [h]
  rfl

@[simp] theorem dit_images (db : Db) (i : Nat) :
    (delete_image_tags_stmt db i).images = db.images := rfl

@[simp] theorem dit_tags (db : Db) (i : Nat) :
    (delete_image_tags_stmt db i).tags = db.tags := rfl

@[simp] theorem dit_nextImageId (db : Db) (i : Nat) :
    (delete_image_tags_stmt db i).nextImageId = db.nextImageId := rfl

theorem dit_tagged_self (db : Db) (i : Nat) (name : String) :
    ¬ taggedWith (delete_image_tags_stmt db i) i name := by
  rintro ⟨tid, hlink, -⟩
  simp only [delete_image_tags_stmt, List.mem_filter] at hlink
  have := hlink.2
  simp at this

theorem dit_tagged_other {db : Db} {i iid : Nat} (hne : iid ≠ i) (name : String) :
    taggedWith (delete_image_tags_stmt db i) iid name ↔ taggedWith db iid name := by
  constructor
  · rintro ⟨tid, hlink, htag⟩
    simp only [delete_image_tags_stmt, List.mem_filter] at hlink
    exact ⟨tid, hlink.1, htag⟩
  · rintro ⟨tid, hlink, htag⟩
    refine ⟨tid, ?_, htag⟩
    simp only [delete_image_tags_stmt, List.mem_filter]
    exact ⟨hlink, by simpa using hne⟩

theorem dit_wf {db : Db} (i : Nat) (hwf : Db.WF db) :
    Db.WF (delete_image_tags_stmt db i) := by
  refine ⟨hwf.imageIdsNodup, hwf.filepathsNodup, hwf.imageIdsLt, hwf.tagIdsNodup,
    hwf.tagNamesNodup, hwf.tagIdsLt, ?_⟩
  intro p hp
  simp only [delete_image_tags_stmt, List.mem_filter] at hp
  exact hwf.linkTagIdsValid p hp.1

theorem nodup_key_inj {α β : Type} {l : List α} {f : α → β} {a b : α}
    (h : (l.map f).Nodup) (h1 : a ∈ l) (h2 : b ∈ l) (heq : f a = f b) : a = b := by
  induction l with
  | nil => cases h1
  | cons hd tl ih =>
    rcases List.mem_cons.mp h1 with rfl | h1'
    · rcases List.mem_cons.mp h2 with rfl | h2'
      · rfl
      · exact absurd (heq ▸ List.mem_map_of_mem f h2')
          (by simpa using (List.nodup_cons.mp h).1)
    · rcases List.mem_cons.mp h2 with rfl | h2'
      · exact absurd (heq ▸ List.mem_map_of_mem f h1')
          (by simpa using (List.nodup_cons.mp h).1)
      · exact ih (List.nodup_cons.mp h).2 h1' h2'

/-- Specification of one iteration of the record loop
(`bulk_upsert_record`): invariants are preserved and there is an image id
`uid` — the id returned by the upsert statement — such that the record's row
is stored at `uid`, its tag associations are exactly the normalized tag set
of the record, every other image's associations are untouched, rows with
other filepaths survive unchanged, and the `images` table grows by one row
exactly when the filepath was new. -/
theorem bur_spec (db : Db) (cache : List (String × Nat)) (r : BulkRecord)
    (hwf : Db.WF db) (hcache : CacheOK db cache) :
    Db.WF (bulk_upsert_record db cache r).1 ∧
    CacheOK (bulk_upsert_record db cache r).1 (bulk_upsert_record db cache r).2 ∧
    ∃ uid,
      rowOfRecord uid r ∈ (bulk_upsert_record db cache r).1.images ∧
      (∀ name, taggedWith (bulk_upsert_record db cache r).1 uid name ↔
        name ∈ normalizedTags r.tags) ∧
      (∀ iid name, iid ≠ uid →
        (taggedWith (bulk_upsert_record db cache r).1 iid name ↔ taggedWith db iid name)) ∧
      (∀ q ∈ db.images, q.filepath ≠ r.filepath →
        q ∈ (bulk_upsert_record db cache r).1.images) ∧
      (∀ x ∈ (bulk_upsert_record db cache r).1.images,
        (x ∈ db.images ∧ x.filepath ≠ r.filepath) ∨ x = rowOfRecord uid r) ∧
      ((∀ row ∈ db.images, row.filepath ≠ r.filepath) →
        (bulk_upsert_record db cache r).1.images.map ImageRow.filepath =
          db.images.map ImageRow.filepath ++ [r.filepath] ∧
        (bulk_upsert_record db cache r).1.nextImageId = db.nextImageId + 1) ∧
      ((∃ row ∈ db.images, row.filepath = r.filepath) →
        (∃ old ∈ db.images, old.filepath = r.filepath ∧ old.id = uid) ∧
        (bulk_upsert_record db cache r).1.images.map ImageRow.filepath =
          db.images.map ImageRow.filepath ∧
        (bulk_upsert_record db cache r).1.images.map ImageRow.id =
          db.images.map ImageRow.id ∧
        (bulk_upsert_record db cache r).1.nextImageId = db.nextImageId) := by
  cases hfind : db.images.find? (fun q => q.filepath = r.filepath) with
  | some row =>
    have hrow_mem : row ∈ db.images := List.mem_of_find?_eq_some hfind
    have hrow_path : row.filepath = r.filepath := by
      have := List.find?_some hfind; simpa using this
    have hbur : bulk_upsert_record db cache r =
        insert_record_tags row.id r.tags
          (delete_image_tags_stmt { db with images := updImages db r } row.id) cache [] := by
      unfold bulk_upsert_record
      rw [uis_found hfind]
    set db1 : Db := { db with images := updImages db r } with hdb1
    have hwf1 : Db.WF db1 := by
      refine ⟨?_, ?_, ?_, hwf.tagIdsNodup, hwf.tagNamesNodup, hwf.tagIdsLt,
        hwf.linkTagIdsValid⟩
      · show ((updImages db r).map ImageRow.id).Nodup
        rw [updImages_map_id]; exact hwf.imageIdsNodup
      · show ((updImages db r).map ImageRow.filepath).Nodup
        rw [updImages_map_filepath]; exact hwf.filepathsNodup
      · intro x hx
        rcases updImages_provenance hx with ⟨q, hq, hxq⟩
        have := hwf.imageIdsLt q hq
        by_cases h : q.filepath = r.filepath <;> simp [h] at hxq <;> subst hxq <;> simpa
    set db2 : Db := delete_image_tags_stmt db1 row.id with hdb2
    have hwf2 : Db.WF db2 := dit_wf row.id hwf1
    have hcache2 : CacheOK db2 cache := fun x hx => hcache x hx
    obtain ⟨h1, h2, h3, h4, h5, h6⟩ := irt_spec row.id r.tags db2 cache [] hwf2 hcache2
    rw [hbur]
    have himg2 : db2.images = updImages db r := rfl
    refine ⟨h1, h2, row.id, ?_, ?_, ?_, ?_, ?_, ?_, ?_⟩
    · rw [h3, himg2]
      have := updImages_mem_updated hrow_mem hrow_path
      simpa using this
    · intro name
      rw [h5 name]
      have hdel : ¬ taggedWith db2 row.id name := dit_tagged_self db1 row.id name
      simp [hdel]
    · intro iid name hiid
      rw [h6 iid name hiid, hdb2, dit_tagged_other hiid]
      exact Iff.rfl
    · intro q hq hqne
      rw [h3, himg2]
      exact updImages_mem_of_ne hq hqne
    · intro x hx
      rw [h3, himg2] at hx
      rcases updImages_provenance hx with ⟨q, hq, hxq⟩
      by_cases h : q.filepath = r.filepath
      · right
        have : q = row := nodup_key_inj hwf.filepathsNodup hq hrow_mem (h.trans hrow_path.symm)
        subst this
        simpa [h] using hxq
      · left
        simp only [h, if_false] at hxq
        subst hxq
        exact ⟨hq, h⟩
    · intro hnew
      exact absurd hrow_path (hnew row hrow_mem)
    · intro _
      refine ⟨⟨row, hrow_mem, hrow_path, rfl⟩, ?_, ?_, ?_⟩
      · rw [h3, himg2, updImages_map_filepath]
      · rw [h3, himg2, updImages_map_id]
      · rw [h4]; rfl
  | none =>
    have hnew : ∀ row ∈ db.images, row.filepath ≠ r.filepath := by
      intro row hrow
      have := List.find?_eq_none.mp hfind row hrow
      simpa using this
    have hbur : bulk_upsert_record db cache r =
        insert_record_tags db.nextImageId r.tags
          (delete_image_tags_stmt
            { db with
                images := db.images ++ [rowOfRecord db.nextImageId r]
                nextImageId := db.nextImageId + 1 } db.nextImageId) cache [] := by
      unfold bulk_upsert_record
      rw [uis_new hnew]
    set db1 : Db :=
      { db with
          images := db.images ++ [rowOfRecord db.nextImageId r]
          nextImageId := db.nextImageId + 1 } with hdb1
    have hwf1 : Db.WF db1 := by
      refine ⟨?_, ?_, ?_, hwf.tagIdsNodup, hwf.tagNamesNodup, hwf.tagIdsLt,
        hwf.linkTagIdsValid⟩
      · show ((db.images ++ [rowOfRecord db.nextImageId r]).map ImageRow.id).Nodup
        rw [List.map_append, List.nodup_append]
        refine ⟨hwf.imageIdsNodup, by simp, ?_⟩
        intro x hx
        simp only [List.map_cons, List.map_nil, List.mem_singleton, rowOfRecord_id]
        rintro rfl
        rcases List.mem_map.mp hx with ⟨q, hq, hid⟩
        exact absurd (hid ▸ hwf.imageIdsLt q hq) (lt_irrefl _)
      · show ((db.images ++ [rowOfRecord db.nextImageId r]).map ImageRow.filepath).Nodup
        rw [List.map_append, List.nodup_append]
        refine ⟨hwf.filepathsNodup, by simp, ?_⟩
        intro x hx
        simp only [List.map_cons, List.map_nil, List.mem_singleton, rowOfRecord_filepath]
        rintro rfl
        rcases List.mem_map.mp hx with ⟨q, hq, hfp⟩
        exact hnew q hq hfp
      · intro x hx
        rcases List.mem_append.mp hx with hx' | hx'
        · exact lt_trans (hwf.imageIdsLt x hx') (Nat.lt_succ_self _)
        · simp only [List.mem_singleton] at hx'
          subst hx'
          exact Nat.lt_succ_self _
    set db2 : Db := delete_image_tags_stmt db1 db.nextImageId with hdb2
    have hwf2 : Db.WF db2 := dit_wf db.nextImageId hwf1
    have hcache2 : CacheOK db2 cache := fun x hx => hcache x hx
    obtain ⟨h1, h2, h3, h4, h5, h6⟩ :=
      irt_spec db.nextImageId r.tags db2 cache [] hwf2 hcache2
    rw [hbur]
    have himg2 : db2.images = db.images ++ [rowOfRecord db.nextImageId r] := rfl
    refine ⟨h1, h2, db.nextImageId, ?_, ?_, ?_, ?_, ?_, ?_, ?_⟩
    · rw [h3, himg2]; simp
    · intro name
      rw [h5 name]
      have hdel : ¬ taggedWith db2 db.nextImageId name :=
        dit_tagged_self db1 db.nextImageId name
      simp [hdel]
    · intro iid name hiid
      rw [h6 iid name hiid, hdb2, dit_tagged_other hiid]
      exact Iff.rfl
    · intro q hq _
      rw [h3, himg2]
      exact List.mem_append.mpr (Or.inl hq)
    · intro x hx
      rw [h3, himg2] at hx
      rcases List.mem_append.mp hx with hx' | hx'
      · exact Or.inl ⟨hx', hnew x hx'⟩
      · simp only [List.mem_singleton] at hx'
        exact Or.inr hx'
    · intro _
      constructor
      · rw [h3, himg2]; simp
      · rw [h4]; rfl
    · rintro ⟨row, hrow, hpath⟩
      exact absurd hpath (hnew row hrow)

/-- Specification of the whole record loop (`bulk_upsert_fold`) for a batch
with pairwise-distinct filepaths. -/
theorem fold_spec :
    ∀ (records : List BulkRecord) (db : Db) (cache : List (String × Nat)) (count : Nat),
    Db.WF db → CacheOK db cache → (records.map BulkRecord.filepath).Nodup →
    Db.WF (bulk_upsert_fold records db cache count).1 ∧
    CacheOK (bulk_upsert_fold records db cache count).1
      (bulk_upsert_fold records db cache count).2.1 ∧
    (bulk_upsert_fold records db cache count).2.2 = count + records.length ∧
    (∀ q ∈ db.images, (∀ r' ∈ records, r'.filepath ≠ q.filepath) →
      q ∈ (bulk_upsert_fold records db cache count).1.images ∧
      ∀ name, (taggedWith (bulk_upsert_fold records db cache count).1 q.id name ↔
        taggedWith db q.id name)) ∧
    (∀ r ∈ records, ∃ row ∈ (bulk_upsert_fold records db cache count).1.images,
      row.filepath = r.filepath ∧ row = rowOfRecord row.id r ∧
      ∀ name, (taggedWith (bulk_upsert_fold records db cache count).1 row.id name ↔
        name ∈ normalizedTags r.tags)) ∧
    ((∀ r ∈ records, ∀ q ∈ db.images, q.filepath ≠ r.filepath) →
      (bulk_upsert_fold records db cache count).1.images.map ImageRow.filepath =
        db.images.map ImageRow.filepath ++ records.map BulkRecord.filepath) ∧
    ((∀ r ∈ records, ∃ q ∈ db.images, q.filepath = r.filepath) →
      (bulk_upsert_fold records db cache count).1.images.map ImageRow.filepath =
        db.images.map ImageRow.filepath ∧
      (bulk_upsert_fold records db cache count).1.images.map ImageRow.id =
        db.images.map ImageRow.id) := by
  intro records
  induction records with
  | nil =>
    intro db cache count hwf hcache _
    refine ⟨hwf, hcache, by simp [bulk_upsert_fold], ?_, by simp, by simp [bulk_upsert_fold],
      fun _ => ⟨rfl, rfl⟩⟩
    intro q hq _
    exact ⟨hq, fun _ => Iff.rfl⟩
  | cons r rest ih =>
    intro db cache count hwf hcache hnodup
    have hnodup_rest : (rest.map BulkRecord.filepath).Nodup :=
      (List.nodup_cons.mp (by simpa using hnodup)).2
    have hr_notin : ∀ r' ∈ rest, r'.filepath ≠ r.filepath := by
      intro r' hr' heq
      exact (List.nodup_cons.mp (by simpa using hnodup)).1
        (heq ▸ List.mem_map_of_mem BulkRecord.filepath hr')
    obtain ⟨hwf', hcache', uid, hrowmem, hassoc, hframe, hpreserve, hprov, hnewcase,
      hfoundcase⟩ := bur_spec db cache r hwf hcache
    have hfold : bulk_upsert_fold (r :: rest) db cache count =
        bulk_upsert_fold rest (bulk_upsert_record db cache r).1
          (bulk_upsert_record db cache r).2 (count + 1) := by
      simp only [bulk_upsert_fold]
    obtain ⟨ih1, ih2, ih3, ihframe, ihrec, ihnew, ihfound⟩ :=
      ih (bulk_upsert_record db cache r).1 (bulk_upsert_record db cache r).2
        (count + 1) hwf' hcache' hnodup_rest
    rw [hfold]
    refine ⟨ih1, ih2, by rw [ih3]; simp; omega, ?_, ?_, ?_, ?_⟩
    · -- frame: rows untouched by the whole batch
      intro q hq hall
      have hq_ne_r : q.filepath ≠ r.filepath := fun h => hall r (by simp) h.symm
      have hq' : q ∈ (bulk_upsert_record db cache r).1.images := hpreserve q hq hq_ne_r
      have hid_ne : q.id ≠ uid := by
        intro hid
        have : q = rowOfRecord uid r :=
          nodup_key_inj hwf'.imageIdsNodup hq' hrowmem (by simpa using hid)
        exact hq_ne_r (by rw [this]; simp)
      obtain ⟨hmem, hpres⟩ := ihframe q hq' (fun r' hr' => hall r' (by simp [hr']))
      refine ⟨hmem, fun name => ?_⟩
      rw [hpres name, hframe q.id name hid_ne]
    · -- every record of the batch ends up stored with exactly its tags
      intro rr hrr
      rcases List.mem_cons.mp hrr with heq | hrrrest
      · subst heq
        obtain ⟨hmem, hpres⟩ := ihframe (rowOfRecord uid rr) hrowmem
          (by intro r'' hr''; simpa using hr_notin r'' hr'')
        refine ⟨rowOfRecord uid rr, hmem, by simp, by simp, fun name => ?_⟩
        have hp := hpres name
        simp only [rowOfRecord_id] at hp ⊢
        rw [hp]
        exact hassoc name
      · exact ihrec rr hrrrest
    · -- all-new batch: filepaths are appended in order
      intro hallnew
      have hnew_r : ∀ q ∈ db.images, q.filepath ≠ r.filepath := by
        intro q hq
        exact hallnew r (by simp) q hq
      obtain ⟨hmapnew, _⟩ := hnewcase (fun row hrow => hnew_r row hrow)
      have hrest_new : ∀ r' ∈ rest, ∀ q ∈ (bulk_upsert_record db cache r).1.images,
          q.filepath ≠ r'.filepath := by
        intro r' hr' q hq
        rcases hprov q hq with ⟨hq_db, _⟩ | hq_new
        · exact hallnew r' (by simp [hr']) q hq_db
        · rw [hq_new, rowOfRecord_filepath]
          exact fun h => hr_notin r' hr' h.symm
      rw [ihnew hrest_new, hmapnew]
      simp
    · -- all-existing batch: filepaths and ids of the table are unchanged
      intro hallex
      obtain ⟨_, hmapfp, hmapid, _⟩ := hfoundcase (hallex r (by simp))
      have hrest_ex : ∀ r' ∈ rest, ∃ q ∈ (bulk_upsert_record db cache r).1.images,
          q.filepath = r'.filepath := by
        intro r' hr'
        obtain ⟨q, hq, hfp⟩ := hallex r' (by simp [hr'])
        refine ⟨q, hpreserve q hq ?_, hfp⟩
        rw [hfp]
        exact hr_notin r' hr'
      obtain ⟨ihfp, ihid⟩ := ihfound hrest_ex
      exact ⟨by rw [ihfp, hmapfp], by rw [ihid, hmapid]⟩

theorem mem_normalizedTags {tags : List String} {name : String} :
    name ∈ normalizedTags tags ↔
      (∃ t ∈ tags, ascii_lowercase t.trim = name) ∧ name ≠ "" := by
  simp only [normalizedTags, List.mem_filter, List.mem_map, decide_eq_true_eq]

/-- The property claimed of `bulk_upsert_with_tags` for a batch with
pairwise-distinct filepaths over a well-formed database:
(a) if none of the filepaths is stored yet, the image count grows by exactly
the batch size, which is also the returned count;
(b) if all filepaths are already stored, the table's filepaths and ids are
unchanged (rows updated in place, no duplicate row per filepath) and each row
carries the record's new field values;
(c) in any case, the returned count is the batch size, the final filepaths are
duplicate-free, and each record's image is associated with exactly the
deduplicated set of its trimmed, ASCII-lowercased, non-empty tags. -/
def BulkUpsertClaim (db : Db) (records : List BulkRecord) : Prop :=
  ((∀ r ∈ records, ∀ q ∈ db.images, q.filepath ≠ r.filepath) →
    (bulk_upsert_with_tags db records).1 = records.length ∧
    (bulk_upsert_with_tags db records).2.images.length =
      db.images.length + records.length) ∧
  ((∀ r ∈ records, ∃ q ∈ db.images, q.filepath = r.filepath) →
    (bulk_upsert_with_tags db records).2.images.map ImageRow.filepath =
      db.images.map ImageRow.filepath ∧
    (bulk_upsert_with_tags db records).2.images.map ImageRow.id =
      db.images.map ImageRow.id) ∧
  (bulk_upsert_with_tags db records).1 = records.length ∧
  ((bulk_upsert_with_tags db records).2.images.map ImageRow.filepath).Nodup ∧
  (∀ r ∈ records, ∃ row ∈ (bulk_upsert_with_tags db records).2.images,
    row.filepath = r.filepath ∧ row = rowOfRecord row.id r ∧
    ∀ name, (taggedWith (bulk_upsert_with_tags db records).2 row.id name ↔
      (∃ t ∈ r.tags, ascii_lowercase t.trim = name) ∧ name ≠ ""))

/-- C1: `bulk_upsert_with_tags` upserts N distinct-new-filepath records by
growing the image count by exactly N and returning N; re-upserting stored
filepaths updates rows in place without duplicate filepath rows; and after the
upsert each record's image carries exactly the deduplicated normalized
(trimmed, ASCII-lowercased, non-empty) tag set supplied by that record, with
no stale associations surviving. -/
theorem claim_C1_bulk_upsert (db : Db) (records : List BulkRecord)
    (hwf : Db.WF db) (hnodup : (records.map BulkRecord.filepath).Nodup) :
    BulkUpsertClaim db records := by
  unfold BulkUpsertClaim
  cases hne : records.isEmpty with
  | true =>
    have hrec : records = [] := List.isEmpty_iff.mp hne
    subst hrec
    have hbu : bulk_upsert_with_tags db [] = (0, db) := rfl
    refine ⟨fun _ => ⟨by rw [hbu]; rfl, by rw [hbu]; simp⟩, fun _ => ⟨by rw [hbu], by rw [hbu]⟩,
      by rw [hbu]; rfl, ?_, by simp⟩
    rw [hbu]
    exact hwf.filepathsNodup
  | false =>
    have hbu : bulk_upsert_with_tags db records =
        ((bulk_upsert_fold records db [] 0).2.2, (bulk_upsert_fold records db [] 0).1) := by
      unfold bulk_upsert_with_tags
      rw [hne]
      simp
    have hcache0 : CacheOK db [] := by intro x hx; cases hx
    obtain ⟨hwfF, _, hcount, _, hrecs, hnew, hfound⟩ :=
      fold_spec records db [] 0 hwf hcache0 hnodup
    rw [hbu]
    refine ⟨?_, ?_, by simpa using hcount, hwfF.filepathsNodup, ?_⟩
    · intro hallnew
      refine ⟨by simpa using hcount, ?_⟩
      have hm := hnew hallnew
      have := congrArg List.length hm
      simpa using this
    · intro hallex
      exact hfound hallex
    · intro r hr
      obtain ⟨row, hrowmem, hfp, hroweq, hassoc⟩ := hrecs r hr
      refine ⟨row, hrowmem, hfp, hroweq, fun name => ?_⟩
      rw [hassoc name, mem_normalizedTags]

/-! ## SHA-256 (FIPS 180-4) and `image_processing.rs`: `hash_path`

`hash_path` feeds `path.to_string_lossy().as_bytes()` to SHA-256 and
hex-encodes the first 16 digest bytes.  SHA-256 itself is embedded in full so
that cache keys can be computed inside the logic; 32-bit words are `Nat`s
reduced with `% 2^32`. -/

/-- Truncation to a 32-bit word. -/
def w32 (x : Nat) : Nat := x % 4294967296

/-- 32-bit right rotation. -/
def rotr32 (n x : Nat) : Nat := w32 ((x >>> n) ||| (x <<< (32 - n)))

/-- 32-bit bitwise complement (correct for inputs below `2^32`). -/
def comp32 (x : Nat) : Nat := 4294967295 - x

def sha256K : List Nat :=
  [1116352408, 1899447441, 3049323471, 3921009573, 961987163, 1508970993,
   2453635748, 2870763221, 3624381080, 310598401, 607225278, 1426881987,
   1925078388, 2162078206, 2614888103, 3248222580, 3835390401, 4022224774,
   264347078, 604807628, 770255983, 1249150122, 1555081692, 1996064986,
   2554220882, 2821834349, 2952996808, 3210313671, 3336571891, 3584528711,
   113926993, 338241895, 666307205, 773529912, 1294757372, 1396182291,
   1695183700, 1986661051, 2177026350, 2456956037, 2730485921, 2820302411,
   3259730800, 3345764771, 3516065817, 3600352804, 4094571909, 275423344,
   430227734, 506948616, 659060556, 883997877, 958139571, 1322822218,
   1537002063, 1747873779, 1955562222, 2024104815, 2227730452, 2361852424,
   2428436474, 2756734187, 3204031479, 3329325298]

def sha256H0 : List Nat :=
  [1779033703, 3144134277, 1013904242, 2773480762,
   1359893119, 2600822924, 528734635, 1541459225]

/-- Big-endian 8-byte encoding of the bit length. -/
def beBytes64 (n : Nat) : List Nat :=
  [(n >>> 56) &&& 255, (n >>> 48) &&& 255, (n >>> 40) &&& 255, (n >>> 32) &&& 255,
   (n >>> 24) &&& 255, (n >>> 16) &&& 255, (n >>> 8) &&& 255, n &&& 255]

/-- SHA-256 padding: `0x80`, zeros to 56 mod 64, then the bit length. -/
def sha256Pad (msg : List Nat) : List Nat :=
  let len := msg.length
  let zeros := (120 - ((len + 1) % 64)) % 64
  msg ++ [128] ++ List.replicate zeros 0 ++ beBytes64 (len * 8)

/-- Packs bytes into big-endian 32-bit words. -/
def packWords : List Nat → List Nat
  | b0 :: b1 :: b2 :: b3 :: rest =>
      ((((b0 <<< 8) ||| b1) <<< 8 ||| b2) <<< 8 ||| b3) :: packWords rest
  | _ => []

def smallSigma0 (x : Nat) : Nat := (rotr32 7 x) ^^^ (rotr32 18 x) ^^^ (x >>> 3)
def smallSigma1 (x : Nat) : Nat := (rotr32 17 x) ^^^ (rotr32 19 x) ^^^ (x >>> 10)
def bigSigma0 (x : Nat) : Nat := (rotr32 2 x) ^^^ (rotr32 13 x) ^^^ (rotr32 22 x)
def bigSigma1 (x : Nat) : Nat := (rotr32 6 x) ^^^ (rotr32 11 x) ^^^ (rotr32 25 x)

/-- Message-schedule extension (k more words appended). -/
def extendSchedule (w : List Nat) : Nat → List Nat
  | 0 => w
  | k + 1 =>
    let w' := extendSchedule w k
    let n := w'.length
    let s0 := smallSigma0 (w'.getD (n - 15) 0)
    let s1 := smallSigma1 (w'.getD (n - 2) 0)
    w' ++ [w32 (w'.getD (n - 16) 0 + s0 + w'.getD (n - 7) 0 + s1)]

structure Sha256State where
  sa : Nat
  sb : Nat
  sc : Nat
  sd : Nat
  se : Nat
  sf : Nat
  sg : Nat
  sh : Nat

/-- One compression round; `kw` is the pair (round constant, schedule word). -/
def sha256Round (st : Sha256State) (kw : Nat × Nat) : Sha256State :=
  let ch := (st.se &&& st.sf) ^^^ (comp32 (w32 st.se) &&& st.sg)
  let maj := (st.sa &&& st.sb) ^^^ (st.sa &&& st.sc) ^^^ (st.sb &&& st.sc)
  let t1 := w32 (st.sh + bigSigma1 st.se + ch + kw.1 + kw.2)
  let t2 := w32 (bigSigma0 st.sa + maj)
  ⟨w32 (t1 + t2), st.sa, st.sb, st.sc, w32 (st.sd + t1), st.se, st.sf, st.sg⟩

/-- Compression of one 64-byte block into the running hash state. -/
def sha256Compress (hs : List Nat) (block : List Nat) : List Nat :=
  let w := extendSchedule (packWords block) 48
  let st0 : Sha256State :=
    ⟨hs.getD 0 0, hs.getD 1 0, hs.getD 2 0, hs.getD 3 0,
     hs.getD 4 0, hs.getD 5 0, hs.getD 6 0, hs.getD 7 0⟩
  let st := (sha256K.zip w).foldl sha256Round st0
  [w32 (hs.getD 0 0 + st.sa), w32 (hs.getD 1 0 + st.sb), w32 (hs.getD 2 0 + st.sc),
   w32 (hs.getD 3 0 + st.sd), w32 (hs.getD 4 0 + st.se), w32 (hs.getD 5 0 + st.sf),
   w32 (hs.getD 6 0 + st.sg), w32 (hs.getD 7 0 + st.sh)]

/-- Splits a byte list into 64-byte blocks (structural recursion on a fuel
bounded by the list length, so that the kernel can evaluate it). -/
def toBlocksF : Nat → List Nat → List (List Nat)
  | 0, _ => []
  | _, [] => []
  | fuel + 1, l => (l.take 64) :: toBlocksF fuel (l.drop 64)

def toBlocks (l : List Nat) : List (List Nat) := toBlocksF l.length l

/-- The SHA-256 digest (32 bytes) of a byte message. -/
def sha256 (msg : List Nat) : List Nat :=
  let hfin := (toBlocks (sha256Pad msg)).foldl sha256Compress sha256H0
  hfin.flatMap (fun h =>
    [(h >>> 24) &&& 255, (h >>> 16) &&& 255, (h >>> 8) &&& 255, h &&& 255])

/-- One hex digit from the table `0123456789abcdef` (image_processing.rs
`hex_encode`'s `HEX` table). -/
def hexDigit (n : Nat) : Char :=
  Char.ofNat (if n < 10 then 48 + n else 87 + n)

/-- `image_processing.rs` `hex_encode`: two lowercase hex chars per byte. -/
def hex_encode (bytes : List Nat) : String :=
  String.mk (bytes.flatMap (fun b => [hexDigit (b >>> 4), hexDigit (b &&& 15)]))

/-- `image_processing.rs` `hash_path` (lines 236-241): SHA-256 over the bytes
of the path string exactly as supplied, truncated to the first 16 digest
bytes and hex-encoded. -/
def hash_path (path : String) : String :=
  hex_encode ((sha256 (strBytes path)).take 16)

/-- Splits a character list at `/` separators. -/
def splitSlash : List Char → List (List Char)
  | [] => [[]]
  | c :: rest =>
    if c = '/' then [] :: splitSlash rest
    else
      match splitSlash rest with
      | [] => [[c]]
      | s :: ss => (c :: s) :: ss

/-- Joins path segments with `/` separators. -/
def joinSegs : List (List Char) → List Char
  | [] => []
  | [s] => s
  | s :: rest => s ++ '/' :: joinSegs rest

/-- Modelled from the spec: the spec's `canonicalized absolute source path`
(`std::fs::canonicalize`) is not computed anywhere in the sources; the only
property of canonicalization the refutation needs is that a single-dot path
segment is removed (`/a/./b` and `/a/b` canonicalize identically on every
POSIX system, independent of symlinks). -/
def removeDotSegments (p : String) : String :=
  String.mk (joinSegs ((splitSlash p.data).filter (· ≠ ['.'])))

theorem sha256Compress_length (hs block : List Nat) :
    (sha256Compress hs block).length = 8 := rfl

theorem sha256_length (msg : List Nat) : (sha256 msg).length = 32 := by
  unfold sha256
  have hfold : ∀ (blocks : List (List Nat)) (hs : List Nat), hs.length = 8 →
      (blocks.foldl sha256Compress hs).length = 8 := by
    intro blocks
    induction blocks with
    | nil => intro hs h; simpa using h
    | cons b bs ih => intro hs h; exact ih _ (sha256Compress_length hs b)
  have hflat : ∀ (l : List Nat),
      (l.flatMap (fun h =>
        [(h >>> 24) &&& 255, (h >>> 16) &&& 255, (h >>> 8) &&& 255, h &&& 255])).length =
        4 * l.length := by
    intro l
    induction l with
    | nil => rfl
    | cons x xs ih => simp [List.flatMap_cons, ih]; omega
  rw [hflat, hfold (toBlocks (sha256Pad msg)) sha256H0 (by rfl)]

theorem hex_encode_length (bytes : List Nat) :
    (hex_encode bytes).length = 2 * bytes.length := by
  unfold hex_encode
  induction bytes with
  | nil => rfl
  | cons b bs ih =>
    simp only [List.flatMap_cons] at *
    simp only [String.length] at *
    simp [ih]
    omega

/-- C4 (amended): the thumbnail cache key is the hex encoding of the first 16
bytes of SHA-256 of the source path string exactly as supplied — validated
against the FIPS 180-4 test vector for `"abc"` — and is always 32 lowercase
hex characters; no cache-format-version tag enters the hash and the path is
not canonicalized (see the counterexample), and the key depends on nothing
but the path string (in particular not on the file's content). -/
theorem claim_C4_hash_path (p : String) :
    hash_path "abc" = "ba7816bf8f01cfea414140de5dae2223" ∧
    (hash_path p).length = 32 := by
  constructor
  · decide
  · unfold hash_path
    rw [hex_encode_length, List.length_take, sha256_length]
    decide

/-- C4 (counterexample): two spellings of the same file — identical after
canonicalization — receive different cache keys, so the key is not a function
of the canonicalized absolute source path as the claim states. -/
theorem claim_C4_counterexample :
    removeDotSegments "/images/./a.png" = removeDotSegments "/images/a.png" ∧
    hash_path "/images/./a.png" ≠ hash_path "/images/a.png" := by
  constructor
  · decide
  · decide

/-! ## `database.rs`: `get_file_mtime` (lines 611-623) and
`get_all_file_mtimes` (lines 370-384) -/

/-- The rusqlite error cases distinguished by `get_file_mtime`. -/
inductive SqlErr where
  | queryReturnedNoRows
  | other (msg : String)
deriving DecidableEq

/-- `query_row` over `SELECT file_mtime FROM images WHERE filepath = ?1
LIMIT 1`: the first matching row's nullable `file_mtime`, or the
`QueryReturnedNoRows` error when no row matches. -/
def query_row_file_mtime (db : Db) (filepath : String) : Except SqlErr (Option Int) :=
  match db.images.find? (fun row => row.filepath = filepath) with
  | some row => .ok row.file_mtime
  | none => .error .queryReturnedNoRows

/-- `Database::get_file_mtime`: maps the no-rows error to `Ok(None)` and
passes every other outcome through. -/
def get_file_mtime (db : Db) (filepath : String) : Except SqlErr (Option Int) :=
  match query_row_file_mtime db filepath with
  | .ok mtime => .ok mtime
  | .error .queryReturnedNoRows => .ok none
  | .error err => .error err

/-- `Database::get_all_file_mtimes`: `SELECT filepath, file_mtime FROM images
WHERE file_mtime IS NOT NULL`, collected into a filepath-keyed map. -/
def get_all_file_mtimes (db : Db) : List (String × Int) :=
  db.images.filterMap (fun row => row.file_mtime.map (fun m => (row.filepath, m)))

/-- `HashMap::get` on the collected mtime map (unique keys in a well-formed
database, so first-binding lookup). -/
def mtimeLookup (m : List (String × Int)) (path : String) : Option Int :=
  (m.find? (fun e => e.1 = path)).map Prod.snd

/-- C10: `get_file_mtime` returns `Ok(None)` — not an error — when no image
row with the filepath is indexed, returns `Ok` of the stored (nullable) mtime
of the first matching row otherwise, and never surfaces the
query-returned-no-rows condition as an `Err`. -/
theorem claim_C10_get_file_mtime (db : Db) (filepath : String) :
    ((∀ row ∈ db.images, row.filepath ≠ filepath) →
      get_file_mtime db filepath = .ok none) ∧
    (∀ row, db.images.find? (fun q => q.filepath = filepath) = some row →
      get_file_mtime db filepath = .ok row.file_mtime) ∧
    (∃ m, get_file_mtime db filepath = .ok m) := by
  refine ⟨?_, ?_, ?_⟩
  · intro hnone
    have hfind : db.images.find? (fun q => q.filepath = filepath) = none := by
      apply List.find?_eq_none.mpr
      intro row hrow
      simpa using hnone row hrow
    unfold get_file_mtime query_row_file_mtime
    rw [hfind]
  · intro row hfind
    unfold get_file_mtime query_row_file_mtime
    rw [hfind]
  · unfold get_file_mtime query_row_file_mtime
    cases db.images.find? (fun q => q.filepath = filepath) with
    | some row => exact ⟨row.file_mtime, rfl⟩
    | none => exact ⟨none, rfl⟩

/-! ## `commands/scan.rs`: the changed-file filter of `scan_directory`
(lines 70-98) -/

/-- A file discovered by the scanner walk (path, mtime seconds, size). -/
structure ScannedFile where
  path : String
  file_mtime : Option Int
  file_size : Option Int
deriving DecidableEq

/-- An entry of `files_to_process` in `scan_directory`. -/
structure PendingFile where
  path : String
  file_mtime : Option Int
  file_size : Option Int
deriving DecidableEq

/-- Stage-2 filter of `scan_directory`: a scanned file is dropped exactly
when its mtime and the stored mtime are both present and equal. -/
def files_to_process (image_files : List ScannedFile)
    (existing_mtimes : List (String × Int)) : List PendingFile :=
  image_files.filterMap (fun scanned =>
    let is_unchanged : Bool :=
      match scanned.file_mtime, mtimeLookup existing_mtimes scanned.path with
      | some cur, some existing => cur == existing
      | _, _ => false
    if is_unchanged then none
    else some { path := scanned.path, file_mtime := scanned.file_mtime,
                file_size := scanned.file_size })

theorem mtimeLookup_none {db : Db} {p : String}
    (h : ∀ q ∈ db.images, q.filepath ≠ p) :
    mtimeLookup (get_all_file_mtimes db) p = none := by
  unfold mtimeLookup
  rw [List.find?_eq_none.mpr]
  · rfl
  · intro e he
    rcases List.mem_filterMap.mp he with ⟨row, hrow, hmap⟩
    cases hm : row.file_mtime with
    | none => rw [hm] at hmap; cases hmap
    | some m =>
      rw [hm] at hmap
      simp only [Option.map_some, Option.map_some'] at hmap
      obtain rfl := Option.some.inj hmap
      simpa using h row hrow

theorem mtimeLookup_aux (l : List ImageRow) (row : ImageRow)
    (hnodup : (l.map ImageRow.filepath).Nodup) (hrow : row ∈ l) :
    Option.map Prod.snd
      ((l.filterMap (fun r => r.file_mtime.map (fun m => (r.filepath, m)))).find?
        (fun e => e.1 = row.filepath)) = row.file_mtime := by
  induction l with
  | nil => cases hrow
  | cons q rest ih =>
    have hhead : q.filepath ∉ rest.map ImageRow.filepath :=
      (List.nodup_cons.mp (by simpa using hnodup)).1
    have hnodup' : (rest.map ImageRow.filepath).Nodup :=
      (List.nodup_cons.mp (by simpa using hnodup)).2
    by_cases hq : q.filepath = row.filepath
    · have hqrow : q = row := by
        rcases List.mem_cons.mp hrow with rfl | hrow'
        · rfl
        · exact absurd (hq ▸ List.mem_map_of_mem ImageRow.filepath hrow') hhead
      subst hqrow
      cases hm : q.file_mtime with
      | some m =>
        simp only [List.filterMap_cons, hm, Option.map_some, Option.map_some']
        rw [List.find?_cons_of_pos]
        · rfl
        · simp
      | none =>
        simp only [List.filterMap_cons, hm, Option.map_none, Option.map_none']
        rw [List.find?_eq_none.mpr]
        · rfl
        · intro e he
          rcases List.mem_filterMap.mp he with ⟨r', hr', hmap⟩
          cases hm' : r'.file_mtime with
          | none => rw [hm'] at hmap; cases hmap
          | some m' =>
            rw [hm'] at hmap
            simp only [Option.map_some, Option.map_some'] at hmap
            obtain rfl := Option.some.inj hmap
            simp only [decide_eq_true_eq]
            intro hfp
            exact hhead (hfp ▸ List.mem_map_of_mem ImageRow.filepath hr')
    · have hrow' : row ∈ rest := by
        rcases List.mem_cons.mp hrow with rfl | h'
        · exact absurd rfl hq
        · exact h'
      cases hm : q.file_mtime with
      | some m =>
        simp only [List.filterMap_cons, hm, Option.map_some, Option.map_some']
        rw [List.find?_cons_of_neg]
        · exact ih hnodup' hrow'
        · simpa using hq
      | none =>
        simp only [List.filterMap_cons, hm, Option.map_none, Option.map_none']
        exact ih hnodup' hrow'

theorem mtimeLookup_get_all {db : Db} {row : ImageRow}
    (hnodup : (db.images.map ImageRow.filepath).Nodup) (hrow : row ∈ db.images) :
    mtimeLookup (get_all_file_mtimes db) row.filepath = row.file_mtime :=
  mtimeLookup_aux db.images row hnodup hrow

/-- The reprocessing condition as the claim words it: the current mtime
differs from the stored one, or no stored mtime exists. -/
def ChangedCondition (s : ScannedFile) (mtimes : List (String × Int)) : Prop :=
  mtimeLookup mtimes s.path = none ∨ s.file_mtime ≠ mtimeLookup mtimes s.path

instance (s : ScannedFile) (mtimes : List (String × Int)) :
    Decidable (ChangedCondition s mtimes) := by
  unfold ChangedCondition
  infer_instance

theorem files_to_process_eq_filter (files : List ScannedFile)
    (mtimes : List (String × Int)) :
    files_to_process files mtimes =
      (files.filter (fun s => decide (ChangedCondition s mtimes))).map
        (fun s => { path := s.path, file_mtime := s.file_mtime,
                    file_size := s.file_size }) := by
  induction files with
  | nil => rfl
  | cons s rest ih =>
    unfold files_to_process at ih ⊢
    simp only [List.filterMap_cons, List.filter_cons]
    cases hs : s.file_mtime with
    | none =>
      cases hl : mtimeLookup mtimes s.path with
      | none => simpa [ChangedCondition, hs, hl] using ih
      | some e => simpa [ChangedCondition, hs, hl] using ih
    | some c =>
      cases hl : mtimeLookup mtimes s.path with
      | none => simpa [ChangedCondition, hs, hl] using ih
      | some e =>
        by_cases hce : c = e
        · subst hce
          simpa [ChangedCondition, hs, hl] using ih
        · simpa [ChangedCondition, hs, hl, hce] using ih

/-- C6: the scan pipeline's changed-file filter reprocesses a discovered file
if and only if its current mtime differs from the stored mtime or no stored
mtime exists (first conjunct: the kept set is exactly the filter by that
condition); consequently a second scan over unchanged files — every file
carrying the same non-null mtime that the first pass stored — reprocesses
nothing, and the corresponding empty bulk-upsert batch performs no write
(`(0, db)`). -/
theorem claim_C6_changed_file_filter (files : List ScannedFile)
    (mtimes : List (String × Int)) (db : Db) (records : List BulkRecord)
    (hwf : Db.WF db) (hnodup : (records.map BulkRecord.filepath).Nodup)
    (hcover : ∀ s ∈ files, ∃ r ∈ records, r.filepath = s.path ∧
      r.file_mtime = s.file_mtime ∧ s.file_mtime ≠ none) :
    files_to_process files mtimes =
      (files.filter (fun s => decide (ChangedCondition s mtimes))).map
        (fun s => { path := s.path, file_mtime := s.file_mtime,
                    file_size := s.file_size }) ∧
    files_to_process files
      (get_all_file_mtimes (bulk_upsert_with_tags db records).2) = [] ∧
    bulk_upsert_with_tags db [] = (0, db) := by
  refine ⟨files_to_process_eq_filter files mtimes, ?_, rfl⟩
  set db' : Db := (bulk_upsert_with_tags db records).2 with hdb'
  have hmain : ∀ s ∈ files, ¬ ChangedCondition s (get_all_file_mtimes db') := by
    intro s hsmem
    obtain ⟨r, hrmem, hrpath, hrmtime, hsome⟩ := hcover s hsmem
    have hne : records.isEmpty = false := by
      cases records with
      | nil => cases hrmem
      | cons a l => rfl
    have hbu : db' = (bulk_upsert_fold records db [] 0).1 := by
      rw [hdb']
      unfold bulk_upsert_with_tags
      rw [hne]
      simp
    have hcache0 : CacheOK db [] := by intro x hx; cases hx
    obtain ⟨hwfF, -, -, -, hrecs, -, -⟩ := fold_spec records db [] 0 hwf hcache0 hnodup
    obtain ⟨row, hrowmem, hrowpath, hroweq, -⟩ := hrecs r hrmem
    have hrowmtime : row.file_mtime = r.file_mtime := by
      rw [hroweq]; rfl
    have hlook : mtimeLookup (get_all_file_mtimes db') s.path = s.file_mtime := by
      have := @mtimeLookup_get_all (bulk_upsert_fold records db [] 0).1 row
        hwfF.filepathsNodup hrowmem
      rw [hrowpath, hrpath] at this
      rw [hbu, this, hrowmtime, hrmtime]
    intro hcc
    rcases hcc with hnone | hdiff
    · rw [hlook] at hnone
      exact hsome hnone
    · exact hdiff hlook.symm
  rw [files_to_process_eq_filter]
  have : files.filter (fun s => decide (ChangedCondition s (get_all_file_mtimes db'))) = [] := by
    apply List.filter_eq_nil_iff.mpr
    intro s hs
    simpa using hmain s hs
  rw [this]
  rfl

/-! ## `image_processing.rs`: `resolve_thumbnail_paths` (lines 130-164)

The filesystem and image-decoding effects are abstracted by an oracle
(`ThumbFs`): whether `prepare_cache_dir` succeeds, which files exist, and
what `generate_single_thumbnail` returns per source. -/

structure ThumbFs where
  cacheDirOk : Bool
  fileExists : String → Bool
  generateOk : String → Option String

/-- `image_processing.rs` `get_thumbnail_path` /
`get_thumbnail_candidate_paths`: the JPEG cache candidate
`cache_dir.join(hash_path(source) + ".jpg")`. -/
def get_thumbnail_path (cache_dir source : String) : String :=
  cache_dir ++ "/" ++ hash_path source ++ ".jpg"

/-- `image_processing.rs` `resolve_thumbnail_paths`: if the cache directory
cannot be prepared, every input maps to itself; otherwise each input maps to
the existing cache path, else a freshly generated thumbnail, else itself
(the `par_iter().map().collect()` preserves order and arity). -/
def resolve_thumbnail_paths (fs : ThumbFs) (filepaths : List String)
    (cache_dir : String) : List (String × String) :=
  if fs.cacheDirOk = false then
    filepaths.map (fun fp => (fp, fp))
  else
    filepaths.map (fun fp =>
      let thumb := get_thumbnail_path cache_dir fp
      if fs.fileExists thumb then (fp, thumb)
      else
        match fs.generateOk fp with
        | some generated => (fp, generated)
        | none => (fp, fp))

/-- The value chosen for one input by the order-preserving parallel map of
`resolve_thumbnail_paths` when the cache directory is available. -/
def thumbResolved (fs : ThumbFs) (cache_dir fp : String) : String :=
  if fs.fileExists (get_thumbnail_path cache_dir fp) = true then
    get_thumbnail_path cache_dir fp
  else
    match fs.generateOk fp with
    | some generated => generated
    | none => fp

theorem count_pairs_one {β : Type} (g : String → β) :
    ∀ (filepaths : List String) (fp : String), filepaths.Nodup → fp ∈ filepaths →
    (((filepaths.map (fun x => (x, g x))).filter (fun m => m.1 = fp))).length = 1 := by
  intro filepaths
  induction filepaths with
  | nil => intro fp _ hmem; cases hmem
  | cons x rest ih =>
    intro fp hnodup hmem
    have hx := List.nodup_cons.mp hnodup
    by_cases hxf : x = fp
    · subst hxf
      simp only [List.map_cons, List.filter_cons]
      rw [if_pos (by simp)]
      have hzero : ((rest.map (fun y => (y, g y))).filter (fun m => m.1 = x)).length = 0 := by
        rw [List.length_eq_zero]
        apply List.filter_eq_nil_iff.mpr
        intro m hm
        rcases List.mem_map.mp hm with ⟨y, hy, rfl⟩
        simp only [decide_eq_true_eq]
        intro h
        have hyx : y = x := h
        exact hx.1 (hyx ▸ hy)
      simp [hzero]
    · have hmem' : fp ∈ rest := by
        rcases List.mem_cons.mp hmem with rfl | h'
        · exact absurd rfl hxf
        · exact h'
      simp only [List.map_cons, List.filter_cons]
      rw [if_neg (by simpa using hxf)]
      exact ih fp hx.2 hmem'

/-- C7: `resolve_thumbnail_paths` returns exactly one mapping per input
filepath; the mapped value is the existing cache path when present, else the
freshly generated path when generation succeeds, else the original source
path as the no-thumbnail sentinel; a per-item generation failure never fails
the batch (the output always covers all inputs), and when the cache
directory cannot be prepared every input maps to itself. -/
theorem claim_C7_resolve_thumbnail_paths (fs : ThumbFs) (filepaths : List String)
    (cache_dir : String) (hnodup : filepaths.Nodup) :
    (resolve_thumbnail_paths fs filepaths cache_dir).length = filepaths.length ∧
    (∀ fp ∈ filepaths,
      ((resolve_thumbnail_paths fs filepaths cache_dir).filter
        (fun m => m.1 = fp)).length = 1) ∧
    (∀ fp v, (fp, v) ∈ resolve_thumbnail_paths fs filepaths cache_dir →
      (fs.cacheDirOk = false → v = fp) ∧
      (fs.cacheDirOk = true →
        (fs.fileExists (get_thumbnail_path cache_dir fp) = true →
          v = get_thumbnail_path cache_dir fp) ∧
        (fs.fileExists (get_thumbnail_path cache_dir fp) = false →
          (∀ generated, fs.generateOk fp = some generated → v = generated) ∧
          (fs.generateOk fp = none → v = fp)))) := by
  unfold resolve_thumbnail_paths
  cases hok : fs.cacheDirOk with
  | false =>
    simp only [if_pos rfl]
    refine ⟨by simp, ?_, ?_⟩
    · intro fp hfp
      exact count_pairs_one (fun x => x) filepaths fp hnodup hfp
    · intro fp v hmem
      rcases List.mem_map.mp hmem with ⟨x, hx, hfx⟩
      have hxfp : x = fp := congrArg Prod.fst hfx
      have hvx : v = x := (congrArg Prod.snd hfx).symm
      subst hxfp
      exact ⟨fun _ => hvx, fun h => nomatch h⟩
  | true =>
    rw [if_neg (by simp)]
    have hfun : (fun fp =>
        let thumb := get_thumbnail_path cache_dir fp
        if fs.fileExists thumb = true then (fp, thumb)
        else
          match fs.generateOk fp with
          | some generated => (fp, generated)
          | none => (fp, fp)) =
        (fun fp => (fp, thumbResolved fs cache_dir fp)) := by
      funext fp
      simp only [thumbResolved]
      split
      · rfl
      · cases fs.generateOk fp <;> rfl
    rw [hfun]
    refine ⟨by simp, ?_, ?_⟩
    · intro fp hfp
      exact count_pairs_one (thumbResolved fs cache_dir) filepaths fp hnodup hfp
    · intro fp v hmem
      rcases List.mem_map.mp hmem with ⟨x, hx, hfx⟩
      have hxfp : x = fp := congrArg Prod.fst hfx
      subst hxfp
      have hv : v = thumbResolved fs cache_dir x := (congrArg Prod.snd hfx).symm
      subst hv
      refine ⟨?_, fun _ => ⟨?_, ?_⟩⟩
      · intro h
        simp at h
      · intro hex
        simp [thumbResolved, hex]
      · intro hnex
        refine ⟨fun g hg => ?_, fun hnone => ?_⟩
        · simp [thumbResolved, hnex, hg]
        · simp [thumbResolved, hnex, hnone]

/-! ## Concrete witness data -/

def wParams : GenerationParams :=
  { prompt := "cat hero portrait", negative_prompt := "",
    steps := some "30", sampler := some "Euler a", schedule_type := none,
    cfg_scale := some "5", seed := some "123", width := some 896,
    height := some 1152, model_hash := none, model_name := some "testModel",
    generation_type := some "txt2img", extra_params := [],
    raw_metadata := "cat hero portrait" }

def wRecA : BulkRecord :=
  { filepath := "c:/images/a.png", filename := "a.png", directory := "c:/images",
    params := wParams, file_mtime := some 100, file_size := some 10,
    quick_hash := some "00ff", tags := ["Cat ", "cat", "", "Hero"] }

def wRecB : BulkRecord :=
  { filepath := "c:/images/b.png", filename := "b.png", directory := "c:/images",
    params := wParams, file_mtime := some 200, file_size := some 10,
    quick_hash := some "00aa", tags := ["cat", "landscape"] }

def wDbEmpty : Db :=
  { images := [], tags := [], image_tags := [], nextImageId := 1, nextTagId := 1 }

theorem wDbEmpty_wf : Db.WF wDbEmpty :=
  ⟨by simp [wDbEmpty], by simp [wDbEmpty], by simp [wDbEmpty], by simp [wDbEmpty],
   by simp [wDbEmpty], by simp [wDbEmpty], by simp [wDbEmpty]⟩

/-- Witness for C1 at a concrete two-record batch over the empty database. -/
theorem claim_C1_bulk_upsert_witness : BulkUpsertClaim wDbEmpty [wRecA, wRecB] :=
  claim_C1_bulk_upsert wDbEmpty [wRecA, wRecB] wDbEmpty_wf (by decide)

def wFileA : ScannedFile :=
  { path := "c:/images/a.png", file_mtime := some 100, file_size := some 10 }

/-- Witness for C6: one file scanned and upserted, then re-scanned unchanged. -/
theorem claim_C6_witness :
    files_to_process [wFileA] [] =
      (([wFileA].filter (fun s => decide (ChangedCondition s []))).map
        (fun s => { path := s.path, file_mtime := s.file_mtime,
                    file_size := s.file_size })) ∧
    files_to_process [wFileA]
      (get_all_file_mtimes (bulk_upsert_with_tags wDbEmpty [wRecA]).2) = [] ∧
    bulk_upsert_with_tags wDbEmpty [] = (0, wDbEmpty) :=
  claim_C6_changed_file_filter [wFileA] [] wDbEmpty [wRecA] wDbEmpty_wf
    (by decide) (by decide)

def wRowA : ImageRow := rowOfRecord 1 wRecA

def wDbOne : Db :=
  { images := [wRowA], tags := [], image_tags := [], nextImageId := 2, nextTagId := 1 }

/-- Witness for C10: a missing filepath yields `Ok(None)`, a stored one its
mtime. -/
theorem claim_C10_witness :
    get_file_mtime wDbOne "c:/images/missing.png" = .ok none ∧
    get_file_mtime wDbOne "c:/images/a.png" = .ok (some 100) :=
  ⟨(claim_C10_get_file_mtime wDbOne "c:/images/missing.png").1 (by decide),
   (claim_C10_get_file_mtime wDbOne "c:/images/a.png").2.1 wRowA (by decide)⟩

def wThumbFs : ThumbFs :=
  { cacheDirOk := true
    fileExists := fun _ => false
    generateOk := fun fp => if fp = "a.png" then some "cache/deadbeef.jpg" else none }

/-- Witness for C7 at a concrete two-element batch where one generation
succeeds and one fails. -/
theorem claim_C7_witness :
    (resolve_thumbnail_paths wThumbFs ["a.png", "b.png"] "cache").length =
      (["a.png", "b.png"] : List String).length ∧
    (∀ fp ∈ (["a.png", "b.png"] : List String),
      ((resolve_thumbnail_paths wThumbFs ["a.png", "b.png"] "cache").filter
        (fun m => m.1 = fp)).length = 1) ∧
    (∀ fp v, (fp, v) ∈ resolve_thumbnail_paths wThumbFs ["a.png", "b.png"] "cache" →
      (wThumbFs.cacheDirOk = false → v = fp) ∧
      (wThumbFs.cacheDirOk = true →
        (wThumbFs.fileExists (get_thumbnail_path "cache" fp) = true →
          v = get_thumbnail_path "cache" fp) ∧
        (wThumbFs.fileExists (get_thumbnail_path "cache" fp) = false →
          (∀ generated, wThumbFs.generateOk fp = some generated → v = generated) ∧
          (wThumbFs.generateOk fp = none → v = fp)))) :=
  claim_C7_resolve_thumbnail_paths wThumbFs ["a.png", "b.png"] "cache" (by decide)

/-! ## `parser.rs`: `split_parameter_pairs` (lines 658-683) and
`is_key_boundary_after_comma` (lines 685-715)

Both functions work on the block's UTF-8 bytes (`block.as_bytes()`), so they
are embedded on `List Nat`.  The outer loop of `split_parameter_pairs` only
branches on the ASCII bytes `"` and `,`, which cannot occur inside a
multi-byte UTF-8 sequence, so the byte-level scan coincides with the
source's `char_indices` scan. -/

/-- Rust `u8::is_ascii_whitespace`: space, tab, LF, FF, CR. -/
def isAsciiWhitespaceByte (b : Nat) : Bool :=
  b = 32 || b = 9 || b = 10 || b = 12 || b = 13

def isAsciiUppercaseByte (b : Nat) : Bool := 65 ≤ b && b ≤ 90

def isAsciiAlnumByte (b : Nat) : Bool :=
  (48 ≤ b && b ≤ 57) || (65 ≤ b && b ≤ 90) || (97 ≤ b && b ≤ 122)

/-- The `is_valid_key_char` check of `is_key_boundary_after_comma`:
alphanumeric, space, `_`, `-`, `/`, `.`, `(`, `)`. -/
def isValidKeyByte (b : Nat) : Bool :=
  isAsciiAlnumByte b || b = 32 || b = 95 || b = 45 || b = 47 || b = 46 ||
    b = 40 || b = 41

/-- The scanning loop of `is_key_boundary_after_comma` from the byte after
the uppercase key start: succeeds at the first `:`, aborts at `,`, `\n`,
`\r` or any invalid key byte.  (The uppercase start itself passes the same
loop's valid-key check, so scanning from the following byte is
equivalent.) -/
def keyBodyScan : List Nat → Bool
  | [] => false
  | b :: rest =>
    if b = 58 then true
    else if b = 44 || b = 10 || b = 13 then false
    else if isValidKeyByte b then keyBodyScan rest
    else false

/-- `is_key_boundary_after_comma` applied to the byte suffix following the
comma: skip ASCII whitespace, require an uppercase ASCII start, then scan
the key body up to a colon. -/
def is_key_boundary_rest (l : List Nat) : Bool :=
  match l.dropWhile isAsciiWhitespaceByte with
  | [] => false
  | b :: rest => isAsciiUppercaseByte b && keyBodyScan rest

/-- `parser.rs` `is_key_boundary_after_comma block from_idx`. -/
def is_key_boundary_after_comma (block : List Nat) (from_idx : Nat) : Bool :=
  is_key_boundary_rest (block.drop from_idx)

/-- Byte-level `str::trim` (ASCII whitespace at both ends). -/
def trimBytes (l : List Nat) : List Nat :=
  ((l.dropWhile isAsciiWhitespaceByte).reverse.dropWhile isAsciiWhitespaceByte).reverse

/-- Pushes a trimmed segment, skipping empties, as the source loop does. -/
def pushSegment (cur : List Nat) (acc : List (List Nat)) : List (List Nat) :=
  let seg := trimBytes cur
  if seg = [] then acc else seg :: acc

/-- The scanning loop of `split_parameter_pairs`, instrumented to also
return the absolute byte positions at which it treats a comma as a field
boundary.  `pos` is the absolute position of the head of `l`; `inq` the
`in_quotes` flag; `cur` the bytes of the segment being accumulated. -/
def splitScan : List Nat → Nat → Bool → List Nat → List (List Nat) × List Nat
  | [], _pos, _inq, cur => (pushSegment cur [], [])
  | b :: rest, pos, inq, cur =>
    if b = 34 then
      splitScan rest (pos + 1) (!inq) (cur ++ [b])
    else if b = 44 && !inq && is_key_boundary_rest rest then
      let (segs, bds) := splitScan rest (pos + 1) false []
      (pushSegment cur segs, pos :: bds)
    else
      splitScan rest (pos + 1) inq (cur ++ [b])

/-- `parser.rs` `split_parameter_pairs` (the trimmed, non-empty segments). -/
def split_parameter_pairs (block : List Nat) : List (List Nat) :=
  (splitScan block 0 false []).1

/-- The comma positions at which `split_parameter_pairs` splits. -/
def boundaryPositions (block : List Nat) : List Nat :=
  (splitScan block 0 false []).2

/-- The claim's description of a key following a comma: after skipping
whitespace, an uppercase-ASCII-starting run of alphanumerics, spaces and
underscore, hyphen, slash, dot and parentheses terminated by a colon (commas and newlines are not valid key
bytes, so the colon necessarily comes before any of them). -/
def KeyAt (l : List Nat) : Prop :=
  ∃ b rest, l.dropWhile isAsciiWhitespaceByte = b :: rest ∧
    isAsciiUppercaseByte b = true ∧
    ∃ k, k < rest.length ∧ rest.getD k 0 = 58 ∧
      ∀ j, j < k → isValidKeyByte (rest.getD j 0) = true

theorem keyBodyScan_iff (l : List Nat) :
    keyBodyScan l = true ↔
      ∃ k, k < l.length ∧ l.getD k 0 = 58 ∧
        ∀ j, j < k → isValidKeyByte (l.getD j 0) = true := by
  induction l with
  | nil => simp [keyBodyScan]
  | cons b rest ih =>
    by_cases hcolon : b = 58
    · subst hcolon
      constructor
      · intro _
        exact ⟨0, Nat.succ_pos _, rfl, fun j hj => absurd hj (Nat.not_lt_zero j)⟩
      · intro _
        simp [keyBodyScan]
    · by_cases habort : b = 44 ∨ b = 10 ∨ b = 13
      · have hno : keyBodyScan (b :: rest) = false := by
          rcases habort with rfl | rfl | rfl <;> simp [keyBodyScan]
        rw [hno]
        simp only [Bool.false_eq_true, false_iff]
        rintro ⟨k, hk, hcol, hval⟩
        cases k with
        | zero => exact hcolon (by simpa using hcol)
        | succ k' =>
          have hb := hval 0 (Nat.succ_pos k')
          simp only [List.getD_cons_zero] at hb
          rcases habort with rfl | rfl | rfl <;>
            simp [isValidKeyByte, isAsciiAlnumByte] at hb
      · have h44 : b ≠ 44 := fun h => habort (Or.inl h)
        have h10 : b ≠ 10 := fun h => habort (Or.inr (Or.inl h))
        have h13 : b ≠ 13 := fun h => habort (Or.inr (Or.inr h))
        by_cases hvalid : isValidKeyByte b = true
        · have hstep : keyBodyScan (b :: rest) = keyBodyScan rest := by
            simp [keyBodyScan, hcolon, h44, h10, h13, hvalid]
          rw [hstep, ih]
          constructor
          · rintro ⟨k, hk, hcol, hval⟩
            refine ⟨k + 1, by simpa using hk, by simpa using hcol, ?_⟩
            intro j hj
            cases j with
            | zero => simpa using hvalid
            | succ j' =>
              have := hval j' (by omega)
              simpa using this
          · rintro ⟨k, hk, hcol, hval⟩
            cases k with
            | zero => exact absurd (by simpa using hcol) hcolon
            | succ k' =>
              refine ⟨k', by simpa using hk, by simpa using hcol, ?_⟩
              intro j hj
              have := hval (j + 1) (by omega)
              simpa using this
        · have hno : keyBodyScan (b :: rest) = false := by
            simp [keyBodyScan, hcolon, h44, h10, h13, hvalid]
          rw [hno]
          simp only [Bool.false_eq_true, false_iff]
          rintro ⟨k, hk, hcol, hval⟩
          cases k with
          | zero => exact hcolon (by simpa using hcol)
          | succ k' => exact hvalid (by simpa using hval 0 (Nat.succ_pos k'))

theorem is_key_boundary_rest_iff (l : List Nat) :
    is_key_boundary_rest l = true ↔ KeyAt l := by
  unfold is_key_boundary_rest KeyAt
  cases hdrop : l.dropWhile isAsciiWhitespaceByte with
  | nil =>
    simp only [Bool.false_eq_true, false_iff]
    rintro ⟨b, rest, heq, -, -⟩
    cases heq
  | cons b rest =>
    rw [Bool.and_eq_true, keyBodyScan_iff]
    constructor
    · rintro ⟨hupper, k, hk, hcol, hval⟩
      exact ⟨b, rest, rfl, hupper, k, hk, hcol, hval⟩
    · rintro ⟨b', rest', heq, hupper, k, hk, hcol, hval⟩
      injection heq with hb hrest
      subst hb
      subst hrest
      exact ⟨hupper, k, hk, hcol, hval⟩

theorem countQ_cons_quote (l : List Nat) :
    (34 :: l).countP (fun b => b = 34) = l.countP (fun b => b = 34) + 1 := by
  simp [List.countP_cons]

theorem countQ_cons_other {b : Nat} (h : b ≠ 34) (l : List Nat) :
    (b :: l).countP (fun x => x = 34) = l.countP (fun x => x = 34) := by
  simp [List.countP_cons, h]

theorem splitScan_boundaries :
    ∀ (l : List Nat) (pos : Nat) (inq : Bool) (cur : List Nat) (i : Nat),
    i ∈ (splitScan l pos inq cur).2 ↔
      ∃ k, k < l.length ∧ i = pos + k ∧ l.getD k 0 = 44 ∧
        ((l.take k).countP (fun b => b = 34)) % 2 = (if inq then 1 else 0) ∧
        is_key_boundary_rest (l.drop (k + 1)) = true := by
  intro l
  induction l with
  | nil =>
    intro pos inq cur i
    simp [splitScan]
  | cons b rest ih =>
    intro pos inq cur i
    unfold splitScan
    by_cases hquote : b = 34
    · subst hquote
      rw [if_pos rfl, ih]
      constructor
      · rintro ⟨k, hk, rfl, hcomma, hpar, hkey⟩
        refine ⟨k + 1, by simpa using hk, by omega, by simpa using hcomma, ?_,
          by simpa using hkey⟩
        rw [List.take_succ_cons, countQ_cons_quote]
        cases inq <;> simp at hpar ⊢ <;> omega
      · rintro ⟨k, hk, rfl, hcomma, hpar, hkey⟩
        cases k with
        | zero => simp at hcomma
        | succ k' =>
          refine ⟨k', by simpa using hk, by omega, by simpa using hcomma, ?_,
            by simpa using hkey⟩
          rw [List.take_succ_cons, countQ_cons_quote] at hpar
          cases inq <;> simp at hpar ⊢ <;> omega
    · rw [if_neg hquote]
      by_cases hsplit : b = 44 ∧ inq = false ∧ is_key_boundary_rest rest = true
      · obtain ⟨rfl, rfl, hkeyb⟩ := hsplit
        rw [if_pos (by simp [hkeyb])]
        simp only [List.mem_cons]
        rw [ih]
        constructor
        · rintro (rfl | ⟨k, hk, rfl, hcomma, hpar, hkey⟩)
          · exact ⟨0, by simp, by omega, rfl, by simp, by simpa using hkeyb⟩
          · refine ⟨k + 1, by simpa using hk, by omega, by simpa using hcomma, ?_,
              by simpa using hkey⟩
            rw [List.take_succ_cons, countQ_cons_other (by decide)]
            simpa using hpar
        · rintro ⟨k, hk, rfl, hcomma, hpar, hkey⟩
          cases k with
          | zero => exact Or.inl (by omega)
          | succ k' =>
            refine Or.inr ⟨k', by simpa using hk, by omega, by simpa using hcomma,
              ?_, by simpa using hkey⟩
            rw [List.take_succ_cons, countQ_cons_other (by decide)] at hpar
            simpa using hpar
      · rw [if_neg (by
          intro hcond
          apply hsplit
          have h1 := (Bool.and_eq_true ..).mp hcond
          have h2 := (Bool.and_eq_true ..).mp h1.1
          refine ⟨by simpa using h2.1, ?_, h1.2⟩
          cases inq
          · rfl
          · simp at h2)]
        rw [ih]
        constructor
        · rintro ⟨k, hk, rfl, hcomma, hpar, hkey⟩
          refine ⟨k + 1, by simpa using hk, by omega, by simpa using hcomma, ?_,
            by simpa using hkey⟩
          rw [List.take_succ_cons, countQ_cons_other hquote]
          exact hpar
        · rintro ⟨k, hk, rfl, hcomma, hpar, hkey⟩
          cases k with
          | zero =>
            exfalso
            simp only [List.getD_cons_zero] at hcomma
            subst hcomma
            simp only [List.take_zero, List.countP_nil] at hpar
            have hinq : inq = false := by
              cases inq
              · rfl
              · simp at hpar
            subst hinq
            exact hsplit ⟨rfl, rfl, by simpa using hkey⟩
          | succ k' =>
            refine ⟨k', by simpa using hk, by omega, by simpa using hcomma, ?_,
              by simpa using hkey⟩
            rw [List.take_succ_cons, countQ_cons_other hquote] at hpar
            exact hpar

/-- C5: in `split_parameter_pairs`, a position is a field boundary if and
only if it holds a comma, lies outside any quoted region (an even number of
double quotes precedes it), and the following bytes — after skipping
whitespace — form an uppercase-ASCII-starting key of alphanumerics, spaces
and underscore, hyphen, slash, dot and parentheses terminated by a colon before any further comma or newline.
Commas inside quoted values or inside list-valued fields fail the parity or
the key test and do not cause splits. -/
theorem claim_C5_split_boundaries (block : List Nat) (i : Nat) :
    i ∈ boundaryPositions block ↔
      i < block.length ∧ block.getD i 0 = 44 ∧
      ((block.take i).countP (fun b => b = 34)) % 2 = 0 ∧
      KeyAt (block.drop (i + 1)) := by
  unfold boundaryPositions
  rw [splitScan_boundaries block 0 false [] i]
  constructor
  · rintro ⟨k, hk, rfl, hcomma, hpar, hkey⟩
    simp only [Nat.zero_add]
    exact ⟨hk, hcomma, by simpa using hpar, (is_key_boundary_rest_iff _).mp hkey⟩
  · rintro ⟨hlt, hcomma, hpar, hkey⟩
    exact ⟨i, hlt, by omega, hcomma, by simpa using hpar,
      (is_key_boundary_rest_iff _).mpr hkey⟩

/-! ## `parser.rs`: `extract_tags` (lines 32-52) and its helpers

The tag set (Rust `HashSet<String>`) is embedded as an insertion-ordered
duplicate-free list: the final `sort()` makes the hash iteration order
irrelevant.  Rust byte indices in `extract_lora_tags` are replaced by char
positions; `to_ascii_lowercase` is length- and boundary-preserving, so the
two scans are isomorphic. -/

/-- `HashSet::insert`. -/
def insertNew (s : List String) (x : String) : List String :=
  if x ∈ s then s else s ++ [x]

/-- Unicode-whitespace `str::trim`, restricted to ASCII whitespace. -/
def trimChars (l : List Char) : List Char :=
  ((l.dropWhile Char.isWhitespace).reverse.dropWhile Char.isWhitespace).reverse

/-- `str::trim_matches` with a character predicate. -/
def trimMatchesPred (p : Char → Bool) (l : List Char) : List Char :=
  ((l.dropWhile p).reverse.dropWhile p).reverse

/-- `str::split` on a character predicate (keeps empty fragments). -/
def splitOnPred (p : Char → Bool) : List Char → List (List Char)
  | [] => [[]]
  | c :: rest =>
    if p c then [] :: splitOnPred p rest
    else
      match splitOnPred p rest with
      | [] => [[c]]
      | s :: ss => (c :: s) :: ss

/-- Byte length of a char sequence (Rust `str::len`). -/
def bytesLen (l : List Char) : Nat := (l.flatMap utf8Char).length

/-- First index at which `pat` occurs (Rust `str::find` for a literal). -/
def findSubIdx (pat : List Char) : List Char → Option Nat
  | [] => if listIsPrefix pat [] then some 0 else none
  | c :: rest =>
    if listIsPrefix pat (c :: rest) then some 0
    else (findSubIdx pat rest).map (· + 1)

/-- Rust `f32::from_str` acceptance, modelled syntactically: optional sign,
then `inf`/`infinity`/`nan` (case-insensitive) or a decimal mantissa with an
optional exponent. -/
def parsesAsF32 (s : String) : Bool :=
  let l := s.data.map asciiLowerChar
  let l := match l with
    | '+' :: rest => rest
    | '-' :: rest => rest
    | other => other
  if l = "inf".data ∨ l = "infinity".data ∨ l = "nan".data then true
  else
    let d1 := l.takeWhile Char.isDigit
    let r1 := l.dropWhile Char.isDigit
    let d2 := match r1 with
      | '.' :: rest => rest.takeWhile Char.isDigit
      | _ => []
    let rem := match r1 with
      | '.' :: rest => rest.dropWhile Char.isDigit
      | _ => r1
    if d1 = [] ∧ d2 = [] then false
    else
      match rem with
      | [] => true
      | 'e' :: rest =>
        let rest := match rest with
          | '+' :: t => t
          | '-' :: t => t
          | t => t
        rest ≠ [] && rest.all Char.isDigit
      | _ => false

/-- `parser.rs` `normalize_prompt_token` (lines 717-749). -/
def normalize_prompt_token (token : String) : Option String :=
  let trimmed := trimChars (trimMatchesPred (· = '"') (trimChars token.data))
  if trimmed = [] then none
  else if listIsPrefix "<lora:".data (trimmed.map asciiLowerChar) then none
  else
    let unwrapped :=
      match trimmed with
      | '(' :: rest =>
        if rest.getLast? = some ')' then rest.dropLast else trimmed
      | _ => trimmed
    let canonical :=
      match findSubIdx [':'] unwrapped.reverse with
      | some ridx =>
        let name := unwrapped.take (unwrapped.length - 1 - ridx)
        let maybe_weight := unwrapped.drop (unwrapped.length - ridx)
        if parsesAsF32 (String.mk (trimChars maybe_weight)) then trimChars name
        else unwrapped
      | none => unwrapped
    if bytesLen canonical < 2 ∨ bytesLen canonical > 96 then none
    else some (String.mk (canonical.map asciiLowerChar))

def STOPWORDS : List String :=
  ["the", "and", "for", "with", "from", "this", "that", "into", "onto", "your",
   "about", "then", "than", "have", "has", "had", "were", "was", "are", "you",
   "their", "there", "what", "when", "where", "while", "over", "under",
   "inside", "outside", "without", "within", "between", "through", "using",
   "make", "made", "just", "also", "very", "into"]

/-- The fold of `extract_word_tags` with its `added` cap of 32. -/
def extract_word_tags_go : List (List Char) → List String → Nat → List String
  | [], tags, _ => tags
  | w :: rest, tags, added =>
    if added ≥ 32 then tags
    else
      let lowered := String.mk ((trimChars w).map asciiLowerChar)
      if bytesLen lowered.data < 3 ∨ bytesLen lowered.data > 48 then
        extract_word_tags_go rest tags added
      else if lowered ∈ STOPWORDS then extract_word_tags_go rest tags added
      else if lowered.data.all Char.isDigit then extract_word_tags_go rest tags added
      else if lowered ∈ tags then extract_word_tags_go rest tags added
      else extract_word_tags_go rest (tags ++ [lowered]) (added + 1)

/-- `parser.rs` `extract_word_tags` (lines 54-83): stop-word-filtered
tokenizer over alphanumeric/`_`/`-` runs, capped at 32 new tags. -/
def extract_word_tags (prompt : String) (tags : List String) : List String :=
  extract_word_tags_go
    (splitOnPred (fun c => !(c.isAlphanum || c = '_' || c = '-')) prompt.data)
    tags 0

/-- The `rest.find([':', '>']).unwrap_or(rest.len())` end offset of one
`<lora:...>` occurrence starting at `start`. -/
def loraEnd (prompt : List Char) (start : Nat) : Nat :=
  let rest := prompt.drop start
  (rest.findIdx? (fun c => c = ':' || c = '>')).getD rest.length

/-- The trimmed LoRA name sliced out of the original-case prompt. -/
def loraName (prompt : List Char) (start : Nat) : List Char :=
  trimChars ((prompt.drop start).take (loraEnd prompt start))

/-- The conditional insertion of one `lora:` tag (non-empty name of at most
96 bytes). -/
def loraInsert (prompt : List Char) (start : Nat) (tags : List String) :
    List String :=
  if loraName prompt start ≠ [] ∧ bytesLen (loraName prompt start) ≤ 96 then
    insertNew tags ("lora:" ++ String.mk ((loraName prompt start).map asciiLowerChar))
  else tags

/-- The scanning loop of `extract_lora_tags`, with explicit fuel (the cursor
strictly increases, so `prompt.length + 1` iterations suffice). -/
def extract_lora_tags_go (prompt lower : List Char) :
    Nat → Nat → List String → List String
  | 0, _, tags => tags
  | fuel + 1, cursor, tags =>
    match findSubIdx "<lora:".data (lower.drop cursor) with
    | none => tags
    | some found =>
      let start := cursor + found + 6
      let tags' := loraInsert prompt start tags
      let cursor' := start + loraEnd prompt start + 1
      if cursor' ≥ prompt.length then tags'
      else extract_lora_tags_go prompt lower fuel cursor' tags'

/-- `parser.rs` `extract_lora_tags` (lines 751-770). -/
def extract_lora_tags (prompt : String) (tags : List String) : List String :=
  extract_lora_tags_go prompt.data (prompt.data.map asciiLowerChar)
    (prompt.data.length + 1) 0 tags

/-- One word of `extract_embedding_tags`: lowercase, strip the
`embedding:` namespace, clean the name, and insert when non-empty and at
most 96 bytes. -/
def embName (w : List Char) : List Char :=
  trimChars (trimMatchesPred (fun c => !(c.isAlphanum || c = '_' || c = '-'))
    ((w.map asciiLowerChar).drop 10))

def embStep (w : List Char) (tags : List String) : List String :=
  if listIsPrefix "embedding:".data (w.map asciiLowerChar) then
    if embName w ≠ [] ∧ bytesLen (embName w) ≤ 96 then
      insertNew tags ("embedding:" ++ String.mk (embName w))
    else tags
  else tags

/-- The word fold of `extract_embedding_tags`. -/
def extract_embedding_tags_go : List (List Char) → List String → List String
  | [], tags => tags
  | w :: rest, tags => extract_embedding_tags_go rest (embStep w tags)

/-- `parser.rs` `extract_embedding_tags` (lines 772-784). -/
def extract_embedding_tags (prompt : String) (tags : List String) : List String :=
  extract_embedding_tags_go
    (splitOnPred (fun c => c.isWhitespace || c = ',') prompt.data) tags

/-- The comma-split branch of `extract_tags`. -/
def comma_split_tags (prompt : String) (tags : List String) : List String :=
  (splitOnPred (· = ',') prompt.data).foldl
    (fun s token =>
      match normalize_prompt_token (String.mk token) with
      | some normalized => insertNew s normalized
      | none => s) tags

/-- `parser.rs` `extract_tags` (lines 32-52): comma-split or word-tokenizer
branch, then the LoRA and embedding scans over the whole prompt, collected
into a set and sorted. -/
def extract_tags (prompt : String) : List String :=
  let comma_split := ',' ∈ prompt.data
  let tags :=
    if comma_split then comma_split_tags prompt []
    else extract_word_tags prompt []
  let tags := extract_lora_tags prompt tags
  let tags := extract_embedding_tags prompt tags
  tags.mergeSort (fun a b => a ≤ b)

theorem mem_insertNew {s : List String} {x t : String} :
    t ∈ insertNew s x ↔ t ∈ s ∨ t = x := by
  unfold insertNew
  split
  · rename_i hx
    constructor
    · exact Or.inl
    · rintro (h | rfl)
      · exact h
      · exact hx
  · simp

theorem nodup_insertNew {s : List String} {x : String} (h : s.Nodup) :
    (insertNew s x).Nodup := by
  unfold insertNew
  split
  · exact h
  · rename_i hx
    simpa [List.nodup_append, hx] using h

theorem nodup_comma_split :
    ∀ (tokens : List (List Char)) (s : List String), s.Nodup →
    (tokens.foldl (fun s token =>
      match normalize_prompt_token (String.mk token) with
      | some normalized => insertNew s normalized
      | none => s) s).Nodup := by
  intro tokens
  induction tokens with
  | nil => intro s h; exact h
  | cons w rest ih =>
    intro s h
    simp only [List.foldl_cons]
    cases normalize_prompt_token (String.mk w) with
    | some normalized => exact ih _ (nodup_insertNew h)
    | none => exact ih _ h

theorem nodup_word_go : ∀ (ws : List (List Char)) (s : List String) (added : Nat),
    s.Nodup → (extract_word_tags_go ws s added).Nodup := by
  intro ws
  induction ws with
  | nil => intro s _ h; exact h
  | cons w rest ih =>
    intro s added h
    simp only [extract_word_tags_go]
    split
    · exact h
    · split
      · exact ih s added h
      · split
        · exact ih s added h
        · split
          · exact ih s added h
          · split
            · exact ih s added h
            · rename_i hnot
              exact ih _ _ (by simpa [List.nodup_append] using ⟨h, hnot⟩)

theorem nodup_loraInsert {prompt : List Char} {start : Nat} {s : List String}
    (h : s.Nodup) : (loraInsert prompt start s).Nodup := by
  unfold loraInsert
  split
  · exact nodup_insertNew h
  · exact h

theorem mem_loraInsert {prompt : List Char} {start : Nat} {s : List String}
    {t : String} :
    t ∈ loraInsert prompt start s ↔ t ∈ s ∨ t ∈ loraInsert prompt start [] := by
  unfold loraInsert
  split
  · rw [mem_insertNew]
    have : insertNew [] ("lora:" ++ String.mk ((loraName prompt start).map asciiLowerChar)) =
        ["lora:" ++ String.mk ((loraName prompt start).map asciiLowerChar)] := by
      simp [insertNew]
    rw [this]
    simp
  · simp

theorem nodup_lora_go (prompt lower : List Char) :
    ∀ (fuel cursor : Nat) (s : List String), s.Nodup →
    (extract_lora_tags_go prompt lower fuel cursor s).Nodup := by
  intro fuel
  induction fuel with
  | zero => intro cursor s h; exact h
  | succ fuel ih =>
    intro cursor s h
    simp only [extract_lora_tags_go]
    cases findSubIdx "<lora:".data (lower.drop cursor) with
    | none => exact h
    | some found =>
      simp only []
      split
      · exact nodup_loraInsert h
      · exact ih _ _ (nodup_loraInsert h)

theorem nodup_embStep {w : List Char} {s : List String} (h : s.Nodup) :
    (embStep w s).Nodup := by
  unfold embStep
  split
  · split
    · exact nodup_insertNew h
    · exact h
  · exact h

theorem mem_embStep {w : List Char} {s : List String} {t : String} :
    t ∈ embStep w s ↔ t ∈ s ∨ t ∈ embStep w [] := by
  unfold embStep
  split
  · split
    · rw [mem_insertNew]
      have : insertNew [] ("embedding:" ++ String.mk (embName w)) =
          ["embedding:" ++ String.mk (embName w)] := by
        simp [insertNew]
      rw [this]
      simp
    · simp
  · simp

theorem nodup_emb_go : ∀ (ws : List (List Char)) (s : List String), s.Nodup →
    (extract_embedding_tags_go ws s).Nodup := by
  intro ws
  induction ws with
  | nil => intro s h; exact h
  | cons w rest ih =>
    intro s h
    simp only [extract_embedding_tags_go]
    exact ih _ (nodup_embStep h)

theorem mem_lora_go (prompt lower : List Char) :
    ∀ (fuel cursor : Nat) (s : List String) (t : String),
    t ∈ extract_lora_tags_go prompt lower fuel cursor s ↔
      t ∈ s ∨ t ∈ extract_lora_tags_go prompt lower fuel cursor [] := by
  intro fuel
  induction fuel with
  | zero =>
    intro cursor s t
    simp [extract_lora_tags_go]
  | succ fuel ih =>
    intro cursor s t
    simp only [extract_lora_tags_go]
    cases findSubIdx "<lora:".data (lower.drop cursor) with
    | none => simp
    | some found =>
      simp only []
      split
      · exact mem_loraInsert
      · rw [ih _ (loraInsert prompt (cursor + found + 6) s) t,
          ih _ (loraInsert prompt (cursor + found + 6) []) t,
          mem_loraInsert]
        tauto

theorem mem_emb_go : ∀ (ws : List (List Char)) (s : List String) (t : String),
    t ∈ extract_embedding_tags_go ws s ↔
      t ∈ s ∨ t ∈ extract_embedding_tags_go ws [] := by
  intro ws
  induction ws with
  | nil =>
    intro s t
    simp [extract_embedding_tags_go]
  | cons w rest ih =>
    intro s t
    simp only [extract_embedding_tags_go]
    rw [ih (embStep w s) t, ih (embStep w []) t, mem_embStep]
    tauto

theorem mem_extract_lora (prompt : String) (s : List String) (t : String) :
    t ∈ extract_lora_tags prompt s ↔ t ∈ s ∨ t ∈ extract_lora_tags prompt [] :=
  mem_lora_go prompt.data (prompt.data.map asciiLowerChar)
    (prompt.data.length + 1) 0 s t

theorem mem_extract_embedding (prompt : String) (s : List String) (t : String) :
    t ∈ extract_embedding_tags prompt s ↔
      t ∈ s ∨ t ∈ extract_embedding_tags prompt [] :=
  mem_emb_go (splitOnPred (fun c => c.isWhitespace || c = ',') prompt.data) s t

/-- C9: for every prompt, `extract_tags` returns an ascending
lexicographically sorted, duplicate-free list, and every `lora:` or
`embedding:` namespaced tag found anywhere in the prompt (by the dedicated
scans) is included in the result, regardless of whether the comma-split or
the word-tokenizer branch produced the base tag set. -/
theorem claim_C9_extract_tags (prompt : String) :
    List.Pairwise (· ≤ ·) (extract_tags prompt) ∧
    (extract_tags prompt).Nodup ∧
    (∀ t ∈ extract_lora_tags prompt [], t ∈ extract_tags prompt) ∧
    (∀ t ∈ extract_embedding_tags prompt [], t ∈ extract_tags prompt) := by
  unfold extract_tags
  simp only []
  set base := if ',' ∈ prompt.data then comma_split_tags prompt []
    else extract_word_tags prompt [] with hbase
  set L1 := extract_lora_tags prompt base with hL1
  set L2 := extract_embedding_tags prompt L1 with hL2
  have hbase_nodup : base.Nodup := by
    rw [hbase]
    split
    · exact nodup_comma_split _ [] (by simp)
    · exact nodup_word_go _ [] 0 (by simp)
  have hL1_nodup : L1.Nodup := nodup_lora_go _ _ _ _ _ hbase_nodup
  have hL2_nodup : L2.Nodup := nodup_emb_go _ _ hL1_nodup
  refine ⟨?_, ?_, ?_, ?_⟩
  · have hsorted := @List.sorted_mergeSort String
      (fun a b : String => decide (a ≤ b))
      (fun a b c hab hbc => by
        simp only [decide_eq_true_eq] at *
        exact le_trans hab hbc)
      (fun a b => by
        rcases le_total a b with h | h
        · simp [h]
        · simp [h]) L2
    exact hsorted.imp (fun h => by simpa using h)
  · exact ((List.mergeSort_perm L2 _).nodup_iff).mpr hL2_nodup
  · intro t ht
    rw [List.mem_mergeSort]
    have ht1 : t ∈ L1 := by
      rw [hL1, mem_extract_lora]
      exact Or.inr ht
    rw [hL2, mem_extract_embedding]
    exact Or.inl ht1
  · intro t ht
    rw [List.mem_mergeSort, hL2, mem_extract_embedding]
    exact Or.inr ht

/-! ## An executable model of SQL `ORDER BY`

SQLite's sort is modelled by an insertion sort on a boolean total preorder;
with duplicate-free ids the ordering key is strict, so the sorted sequence is
unique and the choice of algorithm is immaterial.  The sort is structurally
recursive so that the kernel can evaluate concrete pages. -/

def orderedInsert {α : Type} (le : α → α → Bool) (a : α) : List α → List α
  | [] => [a]
  | b :: l => if le a b then a :: b :: l else b :: orderedInsert le a l

def sortRows {α : Type} (le : α → α → Bool) : List α → List α
  | [] => []
  | a :: l => orderedInsert le a (sortRows le l)

theorem orderedInsert_perm {α : Type} (le : α → α → Bool) (a : α) :
    ∀ (l : List α), List.Perm (orderedInsert le a l) (a :: l) := by
  intro l
  induction l with
  | nil => exact List.Perm.refl _
  | cons b l ih =>
    unfold orderedInsert
    split
    · exact List.Perm.refl _
    · exact (ih.cons b).trans (List.Perm.swap a b l)

theorem sortRows_perm {α : Type} (le : α → α → Bool) :
    ∀ (l : List α), List.Perm (sortRows le l) l := by
  intro l
  induction l with
  | nil => exact List.Perm.refl _
  | cons a l ih =>
    exact (orderedInsert_perm le a (sortRows le l)).trans (ih.cons a)

theorem mem_sortRows {α : Type} {le : α → α → Bool} {l : List α} {x : α} :
    x ∈ sortRows le l ↔ x ∈ l :=
  (sortRows_perm le l).mem_iff

theorem sorted_orderedInsert {α : Type} {le : α → α → Bool}
    (trans : ∀ x y z, le x y = true → le y z = true → le x z = true)
    (total : ∀ x y, le x y = true ∨ le y x = true) (a : α) :
    ∀ (l : List α), l.Pairwise (fun x y => le x y = true) →
      (orderedInsert le a l).Pairwise (fun x y => le x y = true) := by
  intro l
  induction l with
  | nil => intro _; simp [orderedInsert]
  | cons b l ih =>
    intro hp
    obtain ⟨hb, hl⟩ := List.pairwise_cons.mp hp
    unfold orderedInsert
    split
    · rename_i hab
      refine List.pairwise_cons.mpr ⟨?_, hp⟩
      intro y hy
      rcases List.mem_cons.mp hy with rfl | hy'
      · exact hab
      · exact trans a b y hab (hb y hy')
    · rename_i hab
      have hba : le b a = true := by
        rcases total a b with h | h
        · exact absurd h hab
        · exact h
      refine List.pairwise_cons.mpr ⟨?_, ih hl⟩
      intro y hy
      have hy' : y ∈ a :: l := (orderedInsert_perm le a l).mem_iff.mp hy
      rcases List.mem_cons.mp hy' with rfl | hyl
      · exact hba
      · exact hb y hyl

theorem sorted_sortRows {α : Type} {le : α → α → Bool}
    (trans : ∀ x y z, le x y = true → le y z = true → le x z = true)
    (total : ∀ x y, le x y = true ∨ le y x = true) :
    ∀ (l : List α), (sortRows le l).Pairwise (fun x y => le x y = true) := by
  intro l
  induction l with
  | nil => simp [sortRows]
  | cons a l ih => exact sorted_orderedInsert trans total a _ ih

theorem pairwise_getLast {α : Type} {R : α → α → Prop} :
    ∀ {l : List α} {x : α}, l.Pairwise R → l.getLast? = some x →
      ∀ a ∈ l, a = x ∨ R a x := by
  intro l
  induction l with
  | nil => intro x _ h; cases h
  | cons hd tl ih =>
    intro x hp hlast a ha
    obtain ⟨hhd, hp'⟩ := List.pairwise_cons.mp hp
    cases tl with
    | nil =>
      have hx : hd = x := by
        have h1 : (some hd : Option α) = some x := by
          simpa [List.getLast?] using hlast
        exact Option.some.inj h1
      subst hx
      rcases List.mem_singleton.mp ha with rfl
      exact Or.inl rfl
    | cons hd2 tl2 =>
      have hlast' : (hd2 :: tl2).getLast? = some x := by
        simpa [List.getLast?] using hlast
      rcases List.mem_cons.mp ha with rfl | ha'
      · refine Or.inr (hhd x ?_)
        obtain ⟨hne, hx⟩ := List.mem_getLast?_eq_getLast (Option.mem_def.mpr hlast')
        rw [hx]
        exact List.getLast_mem hne
      · exact ih hp' hlast' a ha'

/-! ## C2: keyset pagination (`get_images_cursor`, database.rs 672-767;
`SortConfig`, database.rs 1759-1819) -/

/-- `SortConfig` (database.rs 1759-1762). -/
structure SortConfig where
  descending : Bool
  field : String
deriving DecidableEq

/-- `SortConfig::from_str` (database.rs 1765-1792). -/
def SortConfig.from_str (sort_by : String) : SortConfig :=
  if sort_by = "oldest" then { field := "id", descending := false }
  else if sort_by = "name_asc" then { field := "filename", descending := false }
  else if sort_by = "name_desc" then { field := "filename", descending := true }
  else if sort_by = "model" then { field := "model_name", descending := false }
  else if sort_by = "generation_type" then
    { field := "generation_type", descending := false }
  else { field := "id", descending := true }

/-- The `null_sentinel` of `SortConfig::sort_expr` (database.rs 1816):
`''` when descending, `'~'` when ascending, so NULL fields sort last. -/
def SortConfig.null_sentinel (c : SortConfig) : String :=
  if c.descending then "" else "~"

/-- The TEXT value of the SELECTed `sort_expr` = `COALESCE(field, sentinel)`
(database.rs 1811-1818) on a row.  SQLite compares TEXT with the BINARY
collation (byte order of the UTF-8 encoding), which coincides with Lean's
code-point string order.  For the `id` sort the expression is never used in a
comparison (the ORDER BY and cursor clause use the integer `id` directly). -/
def sortValue (c : SortConfig) (r : ImageRow) : String :=
  if c.field = "filename" then r.filename
  else if c.field = "model_name" then r.model_name.getD c.null_sentinel
  else if c.field = "generation_type" then
    r.generation_type.getD c.null_sentinel
  else ""

/-- Executable strict order on char lists: SQLite's BINARY collation
(bytewise order of the UTF-8 encodings, which on scalar values agrees with
code-point lexicographic order). -/
def charsLt : List Char → List Char → Bool
  | [], [] => false
  | [], _ :: _ => true
  | _ :: _, [] => false
  | a :: as, b :: bs =>
    if a < b then true
    else if b < a then false
    else charsLt as bs

/-- Executable strict order on strings, agreeing with the string order
(proved below). -/
def strLtB (a b : String) : Bool := charsLt a.data b.data

theorem charsLt_iff : ∀ (l₁ l₂ : List Char),
    charsLt l₁ l₂ = true ↔ List.Lex (· < ·) l₁ l₂ := by
  intro l₁
  induction l₁ with
  | nil =>
    intro l₂
    cases l₂ with
    | nil =>
      simp only [charsLt]
      constructor
      · intro h; exact Bool.noConfusion h
      · intro h; cases h
    | cons b bs =>
      constructor
      · intro _; exact List.Lex.nil
      · intro _; rfl
  | cons a as ih =>
    intro l₂
    cases l₂ with
    | nil =>
      simp only [charsLt]
      constructor
      · intro h; exact Bool.noConfusion h
      · intro h; cases h
    | cons b bs =>
      simp only [charsLt]
      by_cases hab : a < b
      · rw [if_pos hab]
        constructor
        · intro _; exact List.Lex.rel hab
        · intro _; rfl
      · rw [if_neg hab]
        by_cases hba : b < a
        · rw [if_pos hba]
          constructor
          · intro h; exact Bool.noConfusion h
          · intro h
            cases h with
            | cons h' => exact absurd hba (lt_irrefl _)
            | rel h' => exact absurd h' hab
        · rw [if_neg hba]
          have hab_eq : a = b := le_antisymm (le_of_not_lt hba) (le_of_not_lt hab)
          subst hab_eq
          constructor
          · intro h; exact List.Lex.cons ((ih bs).mp h)
          · intro h
            cases h with
            | cons h' => exact (ih bs).mpr h'
            | rel h' => exact absurd h' hab

theorem strLtB_iff (a b : String) : strLtB a b = true ↔ a < b := by
  rw [String.lt_iff_toList_lt]
  exact charsLt_iff a.data b.data

/-- The decoded cursor JSON (database.rs 686-695): `cursor_id` from key
`id`, `cursor_sort` from key `sort`; the JSON round-trip itself is
abstracted. -/
structure Cursor where
  id : Option Nat
  sort : Option String
deriving DecidableEq

/-- The WHERE fragment appended for a decoded cursor (database.rs 716-734):
`id op ?` for the id sort or a cursor without a sort key, else
`(sort_expr op ? OR (sort_expr = ? AND id op ?))`, with `op` `<` when
descending and `>` when ascending (`SortConfig::cursor_op`,
database.rs 1803-1809). -/
def cursorPred (c : SortConfig) (cur : Cursor) (r : ImageRow) : Bool :=
  match cur.id with
  | none => true
  | some cid =>
    if c.field = "id" then
      if c.descending then decide (r.id < cid) else decide (cid < r.id)
    else
      match cur.sort with
      | some cs =>
        if c.descending then
          strLtB (sortValue c r) cs ||
            (decide (sortValue c r = cs) && decide (r.id < cid))
        else
          strLtB cs (sortValue c r) ||
            (decide (sortValue c r = cs) && decide (cid < r.id))
      | none =>
        if c.descending then decide (r.id < cid) else decide (cid < r.id)

/-- Ascending strict precedence on the pair (sort key, id): the comparison
performed by `ORDER BY sort_expr dir, id dir` between two rows (for the id
sort, on `id` alone). -/
def keyLtB (c : SortConfig) (a b : ImageRow) : Bool :=
  if c.field = "id" then decide (a.id < b.id)
  else
    strLtB (sortValue c a) (sortValue c b) ||
      (decide (sortValue c a = sortValue c b) && decide (a.id < b.id))

/-- `a` strictly precedes `b` in the emitted `ORDER BY`
(`SortConfig::order_clause`, database.rs 1794-1801). -/
def rowBefore (c : SortConfig) (a b : ImageRow) : Bool :=
  if c.descending then keyLtB c b a else keyLtB c a b

/-- The total boolean preorder realised by the ORDER BY: `a` not strictly
after `b`. -/
def rowLE (c : SortConfig) (a b : ImageRow) : Bool := !(rowBefore c b a)

/-- The cursor built from the last returned row (database.rs 740-764):
`{"id": last.id}` for the id sort, else `{"id": last.id, "sort": sort_value}`
with `sort_value` the row's SELECTed sort expression. -/
def nextCursorFor (c : SortConfig) (last : ImageRow) : Cursor :=
  if c.field = "id" then { id := some last.id, sort := none }
  else { id := some last.id, sort := some (sortValue c last) }

/-- The page returned by `get_images_cursor`. -/
structure CursorPageL where
  items : List ImageRow
  next_cursor : Option Cursor
deriving DecidableEq

/-- `get_images_cursor` (database.rs 672-767).  `flt` stands for the
conjunction of the optional WHERE filters appended by
`append_generation_type_filter`, `append_model_filter` and
`append_model_family_filter` (pure row predicates that do not involve the
cursor).  The SQL pipeline `WHERE ... ORDER BY ... LIMIT ?` is the filter,
the sort and the prefix below; `next_cursor` comes from the last collected
row. -/
def get_images_cursor (images : List ImageRow) (cursor : Option Cursor)
    (limit : Nat) (sort_by : Option String) (flt : ImageRow → Bool) :
    CursorPageL :=
  let sort := SortConfig.from_str (sort_by.getD "newest")
  let rows := images.filter (fun r =>
    flt r && (match cursor with
              | some cur => cursorPred sort cur r
              | none => true))
  let items := (sortRows (rowLE sort) rows).take limit
  { items := items, next_cursor := items.getLast?.map (nextCursorFor sort) }

theorem keyLtB_iff (c : SortConfig) (a b : ImageRow) :
    keyLtB c a b = true ↔
      (if c.field = "id" then a.id < b.id
       else sortValue c a < sortValue c b ∨
         (sortValue c a = sortValue c b ∧ a.id < b.id)) := by
  by_cases hf : c.field = "id"
  · rw [if_pos hf]
    unfold keyLtB
    rw [if_pos hf]
    simp only [decide_eq_true_eq]
  · rw [if_neg hf]
    unfold keyLtB
    rw [if_neg hf]
    simp only [Bool.or_eq_true, Bool.and_eq_true, decide_eq_true_eq, strLtB_iff]

theorem keyLtB_irrefl (c : SortConfig) (a : ImageRow) : keyLtB c a a = false := by
  cases h : keyLtB c a a with
  | false => rfl
  | true =>
    exfalso
    have h1 := (keyLtB_iff c a a).mp h
    by_cases hf : c.field = "id"
    · rw [if_pos hf] at h1
      omega
    · rw [if_neg hf] at h1
      rcases h1 with h1 | ⟨_, h1⟩
      · exact absurd h1 (lt_irrefl _)
      · omega

theorem keyLtB_asymm (c : SortConfig) (a b : ImageRow)
    (h : keyLtB c a b = true) : keyLtB c b a = false := by
  cases h' : keyLtB c b a with
  | false => rfl
  | true =>
    exfalso
    have h1 := (keyLtB_iff c a b).mp h
    have h2 := (keyLtB_iff c b a).mp h'
    by_cases hf : c.field = "id"
    · rw [if_pos hf] at h1 h2
      omega
    · rw [if_neg hf] at h1 h2
      rcases h1 with h1 | ⟨he1, hi1⟩ <;> rcases h2 with h2 | ⟨he2, hi2⟩
      · exact absurd h2 (lt_asymm h1)
      · exact absurd he2 (ne_of_gt h1)
      · exact absurd he1 (ne_of_gt h2)
      · omega

theorem keyLtB_trans (c : SortConfig) (a b d : ImageRow)
    (hab : keyLtB c a b = true) (hbd : keyLtB c b d = true) :
    keyLtB c a d = true := by
  rw [keyLtB_iff] at hab hbd ⊢
  by_cases hf : c.field = "id"
  · rw [if_pos hf] at hab hbd ⊢
    omega
  · rw [if_neg hf] at hab hbd ⊢
    rcases hab with h | ⟨he, hi⟩ <;> rcases hbd with h' | ⟨he', hi'⟩
    · exact Or.inl (lt_trans h h')
    · exact Or.inl (lt_of_lt_of_le h (le_of_eq he'))
    · exact Or.inl (lt_of_le_of_lt (le_of_eq he) h')
    · exact Or.inr ⟨he.trans he', by omega⟩

theorem keyLtB_total (c : SortConfig) (a b : ImageRow) :
    keyLtB c a b = true ∨ keyLtB c b a = true ∨
      (sortValue c a = sortValue c b ∧ a.id = b.id) := by
  by_cases hf : c.field = "id"
  · rcases Nat.lt_trichotomy a.id b.id with h | h | h
    · exact Or.inl ((keyLtB_iff c a b).mpr (by rw [if_pos hf]; exact h))
    · refine Or.inr (Or.inr ⟨?_, h⟩)
      unfold sortValue
      simp [hf]
    · exact Or.inr (Or.inl ((keyLtB_iff c b a).mpr (by rw [if_pos hf]; exact h)))
  · rcases lt_trichotomy (sortValue c a) (sortValue c b) with h | h | h
    · exact Or.inl ((keyLtB_iff c a b).mpr (by rw [if_neg hf]; exact Or.inl h))
    · rcases Nat.lt_trichotomy a.id b.id with h' | h' | h'
      · exact Or.inl ((keyLtB_iff c a b).mpr
          (by rw [if_neg hf]; exact Or.inr ⟨h, h'⟩))
      · exact Or.inr (Or.inr ⟨h, h'⟩)
      · exact Or.inr (Or.inl ((keyLtB_iff c b a).mpr
          (by rw [if_neg hf]; exact Or.inr ⟨h.symm, h'⟩)))
    · exact Or.inr (Or.inl ((keyLtB_iff c b a).mpr (by rw [if_neg hf]; exact Or.inl h)))

/-- `keyLtB` only looks at the sort value and the id. -/
theorem keyLtB_congr_left (c : SortConfig) {a a' : ImageRow} (b : ImageRow)
    (hs : sortValue c a = sortValue c a') (hid : a.id = a'.id) :
    keyLtB c a b = keyLtB c a' b := by
  unfold keyLtB
  rw [hs, hid]

theorem keyLtB_congr_right (c : SortConfig) (a : ImageRow) {b b' : ImageRow}
    (hs : sortValue c b = sortValue c b') (hid : b.id = b'.id) :
    keyLtB c a b = keyLtB c a b' := by
  unfold keyLtB
  rw [hs, hid]

theorem rowLE_iff (c : SortConfig) (x y : ImageRow) :
    rowLE c x y = true ↔ rowBefore c y x = false := by
  unfold rowLE
  cases rowBefore c y x <;> simp

theorem rowLE_trans (c : SortConfig) (x y z : ImageRow)
    (hxy : rowLE c x y = true) (hyz : rowLE c y z = true) :
    rowLE c x z = true := by
  rw [rowLE_iff] at hxy hyz ⊢
  unfold rowBefore at hxy hyz ⊢
  by_cases hd : c.descending
  · rw [if_pos hd] at hxy hyz ⊢
    cases h : keyLtB c x z with
    | false => rfl
    | true =>
      exfalso
      rcases keyLtB_total c x y with h1 | h1 | ⟨hs, hid⟩
      · exact absurd hxy (by rw [h1]; decide)
      · exact absurd hyz (by rw [keyLtB_trans c y x z h1 h]; decide)
      · exact absurd hyz (by rw [← keyLtB_congr_left c z hs hid, h]; decide)
  · rw [if_neg hd] at hxy hyz ⊢
    cases h : keyLtB c z x with
    | false => rfl
    | true =>
      exfalso
      rcases keyLtB_total c y z with h1 | h1 | ⟨hs, hid⟩
      · exact absurd hxy (by rw [keyLtB_trans c y z x h1 h]; decide)
      · exact absurd hyz (by rw [h1]; decide)
      · exact absurd hxy (by rw [← keyLtB_congr_left c x hs.symm hid.symm, h]; decide)

theorem rowLE_total (c : SortConfig) (x y : ImageRow) :
    rowLE c x y = true ∨ rowLE c y x = true := by
  rw [rowLE_iff, rowLE_iff]
  unfold rowBefore
  by_cases hd : c.descending
  · rw [if_pos hd, if_pos hd]
    cases hxy : keyLtB c x y with
    | false => exact Or.inl rfl
    | true => exact Or.inr (keyLtB_asymm c x y hxy)
  · rw [if_neg hd, if_neg hd]
    cases hxy : keyLtB c y x with
    | false => exact Or.inl rfl
    | true => exact Or.inr (keyLtB_asymm c y x hxy)

theorem rowBefore_irrefl (c : SortConfig) (a : ImageRow) :
    rowBefore c a a = false := by
  unfold rowBefore
  by_cases hd : c.descending
  · rw [if_pos hd]; exact keyLtB_irrefl c a
  · rw [if_neg hd]; exact keyLtB_irrefl c a

theorem rowBefore_total (c : SortConfig) (a b : ImageRow) :
    rowBefore c a b = true ∨ rowBefore c b a = true ∨
      (sortValue c a = sortValue c b ∧ a.id = b.id) := by
  unfold rowBefore
  by_cases hd : c.descending
  · rw [if_pos hd, if_pos hd]
    rcases keyLtB_total c b a with h | h | h
    · exact Or.inl h
    · exact Or.inr (Or.inl h)
    · exact Or.inr (Or.inr ⟨h.1.symm, h.2.symm⟩)
  · rw [if_neg hd, if_neg hd]
    exact keyLtB_total c a b

/-- The cursor clause generated from a row's cursor selects exactly the rows
strictly after that row in the active order. -/
theorem cursorPred_nextCursor (c : SortConfig) (last r : ImageRow) :
    cursorPred c (nextCursorFor c last) r = rowBefore c last r := by
  unfold cursorPred nextCursorFor rowBefore keyLtB
  by_cases hf : c.field = "id" <;> by_cases hd : c.descending <;>
    simp [hf, hd]
  rw [decide_eq_decide.mpr
    (⟨Eq.symm, Eq.symm⟩ :
      (sortValue c r = sortValue c last) ↔ (sortValue c last = sortValue c r))]

/-- The pagination contract of C2 for a first page ending in `last1` whose
returned cursor is `cur`: the cursor encodes the last row's sort key and id;
every row of the cursor page lies strictly after `last1` in the active order;
no row of the first page recurs in the cursor page; and whenever some
filter-eligible row strictly after `last1` is left out of the cursor page,
that page is full and every row it returned precedes the left-out row (no
gaps). -/
def CursorPaginationOk (images : List ImageRow) (limit : Nat)
    (sort_by : Option String) (flt : ImageRow → Bool) (cur : Cursor)
    (last1 : ImageRow) : Prop :=
  let sort := SortConfig.from_str (sort_by.getD "newest")
  let page2 := get_images_cursor images (some cur) limit sort_by flt
  cur = nextCursorFor sort last1 ∧
  (∀ r ∈ page2.items, rowBefore sort last1 r = true) ∧
  (∀ r ∈ (get_images_cursor images none limit sort_by flt).items,
      r ∉ page2.items) ∧
  (∀ r ∈ images, flt r = true → rowBefore sort last1 r = true →
      r ∉ page2.items →
      page2.items.length = limit ∧
        ∀ q ∈ page2.items, rowBefore sort q r = true)

/-- C2: for an unchanged table, any sort mode and any page size, the page
requested with the cursor returned by a previous page consists of rows
strictly after the previous page's last row under the active
(sort key, id) order, shares no row with the previous page, skips no
eligible row ordered between the pages, and the returned cursor encodes the
last row's sort key and id. -/
theorem claim_C2_cursor_pagination (images : List ImageRow) (limit : Nat)
    (sort_by : Option String) (flt : ImageRow → Bool) (cur : Cursor)
    (last1 : ImageRow)
    (hids : (images.map ImageRow.id).Nodup)
    (hcur : (get_images_cursor images none limit sort_by flt).next_cursor =
      some cur)
    (hlast : (get_images_cursor images none limit sort_by flt).items.getLast? =
      some last1) :
    CursorPaginationOk images limit sort_by flt cur last1 := by
  have hlast1 :
      ((sortRows (rowLE (SortConfig.from_str (sort_by.getD "newest")))
        (images.filter (fun r => flt r && true))).take limit).getLast? =
        some last1 := hlast
  have hcur1 :
      ((sortRows (rowLE (SortConfig.from_str (sort_by.getD "newest")))
        (images.filter (fun r => flt r && true))).take limit).getLast?.map
          (nextCursorFor (SortConfig.from_str (sort_by.getD "newest"))) =
        some cur := hcur
  rw [hlast1, Option.map_some'] at hcur1
  have hcureq : cur =
      nextCursorFor (SortConfig.from_str (sort_by.getD "newest")) last1 :=
    (Option.some.inj hcur1).symm
  refine ⟨hcureq, ?_, ?_, ?_⟩
  all_goals
    simp only [get_images_cursor]
  · -- every cursor-page row is strictly after last1
    intro r hr
    have hr2 := mem_sortRows.mp (List.mem_of_mem_take hr)
    have hpred := (List.mem_filter.mp hr2).2
    rw [Bool.and_eq_true] at hpred
    rw [hcureq, cursorPred_nextCursor] at hpred
    exact hpred.2
  · -- disjointness with the first page
    intro r hr1 hrmem2
    have hbefore : rowBefore (SortConfig.from_str (sort_by.getD "newest"))
        last1 r = true := by
      have hr2 := mem_sortRows.mp (List.mem_of_mem_take hrmem2)
      have hpred := (List.mem_filter.mp hr2).2
      rw [Bool.and_eq_true] at hpred
      rw [hcureq, cursorPred_nextCursor] at hpred
      exact hpred.2
    have hsorted1 :
        ((sortRows (rowLE (SortConfig.from_str (sort_by.getD "newest")))
          (images.filter (fun r => flt r && true))).take limit).Pairwise
          (fun x y =>
            rowLE (SortConfig.from_str (sort_by.getD "newest")) x y = true) :=
      List.Pairwise.sublist (List.take_sublist _ _)
        (sorted_sortRows
          (rowLE_trans (SortConfig.from_str (sort_by.getD "newest")))
          (rowLE_total (SortConfig.from_str (sort_by.getD "newest"))) _)
    rcases pairwise_getLast hsorted1 hlast1 r hr1 with rfl | hle
    · rw [rowBefore_irrefl] at hbefore
      exact Bool.noConfusion hbefore
    · have hfalse := (rowLE_iff _ r last1).mp hle
      exact Bool.noConfusion (hfalse.symm.trans hbefore)
  · -- no gaps: a skipped eligible row implies a full page that precedes it
    intro r hrimg hflt hbefore hnotmem
    have hrrows2 : r ∈ images.filter (fun q => flt q &&
        cursorPred (SortConfig.from_str (sort_by.getD "newest")) cur q) := by
      refine List.mem_filter.mpr ⟨hrimg, ?_⟩
      rw [Bool.and_eq_true, hcureq, cursorPred_nextCursor]
      exact ⟨hflt, hbefore⟩
    have hrord2 : r ∈ sortRows
        (rowLE (SortConfig.from_str (sort_by.getD "newest")))
        (images.filter (fun q => flt q &&
          cursorPred (SortConfig.from_str (sort_by.getD "newest")) cur q)) :=
      mem_sortRows.mpr hrrows2
    have hrsplit : r ∈ (sortRows
        (rowLE (SortConfig.from_str (sort_by.getD "newest")))
        (images.filter (fun q => flt q &&
          cursorPred (SortConfig.from_str (sort_by.getD "newest")) cur q))).take
            limit ++ (sortRows
        (rowLE (SortConfig.from_str (sort_by.getD "newest")))
        (images.filter (fun q => flt q &&
          cursorPred (SortConfig.from_str (sort_by.getD "newest")) cur q))).drop
            limit := by
      rw [List.take_append_drop]
      exact hrord2
    have hrdrop : r ∈ (sortRows
        (rowLE (SortConfig.from_str (sort_by.getD "newest")))
        (images.filter (fun q => flt q &&
          cursorPred (SortConfig.from_str (sort_by.getD "newest")) cur q))).drop
            limit := by
      rcases List.mem_append.mp hrsplit with h | h
      · exact absurd h hnotmem
      · exact h
    have hlt : limit < (sortRows
        (rowLE (SortConfig.from_str (sort_by.getD "newest")))
        (images.filter (fun q => flt q &&
          cursorPred (SortConfig.from_str (sort_by.getD "newest")) cur q))).length := by
      by_contra hle
      push_neg at hle
      rw [List.drop_eq_nil_of_le hle] at hrdrop
      exact absurd hrdrop (List.not_mem_nil r)
    refine ⟨by rw [List.length_take]; omega, ?_⟩
    intro q hq
    have hpair := sorted_sortRows
      (rowLE_trans (SortConfig.from_str (sort_by.getD "newest")))
      (rowLE_total (SortConfig.from_str (sort_by.getD "newest")))
      (images.filter (fun q => flt q &&
        cursorPred (SortConfig.from_str (sort_by.getD "newest")) cur q))
    rw [← List.take_append_drop limit (sortRows
      (rowLE (SortConfig.from_str (sort_by.getD "newest")))
      (images.filter (fun q => flt q &&
        cursorPred (SortConfig.from_str (sort_by.getD "newest")) cur q)))]
      at hpair
    have hle := (List.pairwise_append.mp hpair).2.2 q hq r hrdrop
    have hqneqr : q ≠ r := fun h => hnotmem (h ▸ hq)
    have hqimg : q ∈ images :=
      (List.mem_filter.mp (mem_sortRows.mp (List.mem_of_mem_take hq))).1
    rcases rowBefore_total (SortConfig.from_str (sort_by.getD "newest")) q r
      with h | h | ⟨_, hid⟩
    · exact h
    · have hfalse := (rowLE_iff _ q r).mp hle
      exact Bool.noConfusion (hfalse.symm.trans h)
    · exact absurd (List.inj_on_of_nodup_map hids hqimg hrimg hid) hqneqr

def w2r1 : ImageRow := rowOfRecord 1 { wRecA with filepath := "p1", filename := "c.png" }

def w2r2 : ImageRow := rowOfRecord 2 { wRecA with filepath := "p2", filename := "a.png" }

def w2r3 : ImageRow := rowOfRecord 3 { wRecA with filepath := "p3", filename := "b.png" }

/-! ## C3: ranked search with trigram fallback (`search`, database.rs 637-649;
`query_images`, 1586-1608; `query_images_porter`, 1610-1686;
`query_images_trigram`, 1688-1754; `search_cursor`, 770-801;
`sanitize_fts_query` and helpers, 2080-2141).

Character-level embedding; Unicode `is_alphanumeric` / `to_lowercase` are
modelled by their ASCII restrictions (`Char.isAlphanum`, `asciiLowerChar`),
and Rust's byte indices into the query become char positions (slicing is
done consistently at char granularity).  The two FTS5 MATCH relations are
the only parts not present in src/ (they live in the SQLite extension) and
are modelled from the spec below. -/

/-- `contains_search_token` (database.rs 2139-2141). -/
def contains_search_token (text : String) : Bool :=
  text.data.any (fun ch => ch.isAlphanum)

/-- `process_unquoted_words` (database.rs 2118-2137): split on whitespace,
keep alphanumeric/underscore/star chars, drop empty or bare-star words,
lowercase; words without an explicit wildcard get a trailing `*`. -/
def process_unquoted_words (text : List Char) (parts : List String) :
    List String :=
  parts ++ ((splitOnPred Char.isWhitespace text).filter
      (fun w => !w.isEmpty)).filterMap (fun word =>
    let has_wildcard := word.contains '*'
    let cleaned := word.filter
      (fun ch => ch.isAlphanum || ch == '_' || ch == '*')
    if cleaned.isEmpty || cleaned == ['*'] then none
    else if has_wildcard then some (String.mk (cleaned.map asciiLowerChar))
    else some (String.mk (cleaned.map asciiLowerChar) ++ "*"))

/-- The quoted-phrase loop of `sanitize_fts_query` (database.rs 2085-2113);
fuel bounds the iteration count (each step strictly shortens the
remainder, so `length + 1` suffices). -/
def sanitize_loop : Nat → List Char → List String → List String
  | 0, _, parts => parts
  | fuel + 1, remaining, parts =>
    match findSubIdx ['"'] remaining with
    | some start =>
      let parts := process_unquoted_words (remaining.take start) parts
      match findSubIdx ['"'] (remaining.drop (start + 1)) with
      | some e =>
        let phrase := (remaining.drop (start + 1)).take e
        let cleaned := phrase.filter
          (fun ch => ch.isAlphanum || ch.isWhitespace || ch == '_')
        let trimmed := (splitOnPred Char.isWhitespace cleaned).filter
          (fun w => !w.isEmpty)
        let joined := String.intercalate " " (trimmed.map String.mk)
        let parts := if joined = "" then parts
          else parts ++ ["\"" ++ ascii_lowercase joined ++ "\""]
        sanitize_loop fuel (remaining.drop (start + 1 + e + 1)) parts
      | none => sanitize_loop fuel (remaining.drop (start + 1)) parts
    | none => process_unquoted_words remaining parts

/-- The part list accumulated by `sanitize_fts_query` (database.rs
2080-2115). -/
def sanitize_parts (query : String) : List String :=
  sanitize_loop (query.data.length + 1) (trimChars query.data) []

/-- `sanitize_fts_query` (database.rs 2080-2116): the parts joined with
single spaces. -/
def sanitize_fts_query (query : String) : String :=
  String.intercalate " " (sanitize_parts query)

/-- `replace('"', "\"\"")` on the query (database.rs 1713 and 945). -/
def escQuotes : List Char → List Char
  | [] => []
  | c :: rest =>
    if c = '"' then '"' :: '"' :: escQuotes rest else c :: escQuotes rest

/-- The trigram MATCH expression (database.rs 1711-1714 and 945): the
trimmed query wrapped in double quotes with internal quotes doubled. -/
def trigram_match_expr (sanitized : String) : String :=
  String.mk ('"' :: (escQuotes sanitized.data ++ ['"']))

/-- Modelled from the spec: FTS5 parses a double-quoted string literal —
after the opening quote, a doubled quote stands for a literal quote and a
single quote terminates the phrase (here required to sit at the very end);
the body is the phrase text. -/
def ftsUnquoteBody : List Char → Option (List Char)
  | [] => none
  | c :: rest =>
    if c = '"' then
      match rest with
      | [] => some []
      | c2 :: rest2 =>
        if c2 = '"' then (ftsUnquoteBody rest2).map (fun l => '"' :: l)
        else none
    else (ftsUnquoteBody rest).map (fun l => c :: l)

/-- Modelled from the spec: parse a complete FTS5 quoted string literal. -/
def ftsPhraseParse (s : String) : Option String :=
  match s.data with
  | '"' :: rest => (ftsUnquoteBody rest).map String.mk
  | _ => none

/-- Modelled from the spec: the unicode61 tokenizer of both FTS5 indexes
splits each column into maximal runs of alphanumeric or underscore
characters, case-folded (ASCII restriction; porter stemming omitted —
stemming only widens the porter matches and no statement below depends on
its absence). -/
def ftsTokens (text : String) : List String :=
  ((splitOnPred (fun c => !(c.isAlphanum || c == '_')) text.data).filter
      (fun w => !w.isEmpty)).map (fun w => String.mk (w.map asciiLowerChar))

/-- The four indexed columns of `images_fts` and `images_fts_tri`
(database.rs 182-190 and 216-224): prompt, negative_prompt, raw_metadata,
model_name. -/
def rowFtsText (r : ImageRow) : List String :=
  [r.prompt, r.negative_prompt, r.raw_metadata, r.model_name.getD ""]

/-- Modelled from the spec: a single sanitized porter term matches a row —
a trailing-star term iff some column token starts with its stem, a bare
term iff some column token equals it. -/
def porterTokenMatch (cols : List String) (tok : String) : Bool :=
  if tok.data.getLast? = some '*' then
    cols.any (fun col => (ftsTokens col).any
      (fun t => listIsPrefix tok.data.dropLast t.data))
  else cols.any (fun col => (ftsTokens col).any (fun t => t == tok))

/-- Modelled from the spec: a quoted porter phrase matches iff its token
sequence occurs consecutively within a single column. -/
def porterPhraseMatch (cols : List String) (phrase : String) : Bool :=
  cols.any (fun col => listContainsSub (ftsTokens phrase) (ftsTokens col))

/-- Modelled from the spec: one part of the sanitized MATCH expression. -/
def porterPartMatch (cols : List String) (part : String) : Bool :=
  match part.data with
  | '"' :: rest => porterPhraseMatch cols (String.mk rest.dropLast)
  | _ => porterTokenMatch cols part

/-- Modelled from the spec: the whole space-joined sanitized query is an
implicit AND of its parts. -/
def porterMatch (r : ImageRow) (parts : List String) : Bool :=
  parts.all (porterPartMatch (rowFtsText r))

/-- Modelled from the spec: the trigram index supports case-folded
substring matches of length at least 3 within a single column. -/
def trigramMatch (r : ImageRow) (phrase : String) : Bool :=
  decide (3 ≤ phrase.data.length) &&
    (rowFtsText r).any (fun col =>
      listContainsSub (phrase.data.map asciiLowerChar)
        (col.data.map asciiLowerChar))

/-- The per-tag EXISTS / NOT EXISTS clauses (database.rs 1642-1666):
whether the image carries the (trimmed, ascii-lowercased) tag name. -/
def hasTag (db : Db) (image_id : Nat) (name : String) : Bool :=
  db.image_tags.any (fun p => p.1 == image_id &&
    db.tags.any (fun tg => tg.1 == p.2 && tg.2 == name))

def tagFilterOk (db : Db) (r : ImageRow) (inc exc : List String) : Bool :=
  inc.all (fun tag =>
    hasTag db r.id (ascii_lowercase (String.mk (trimChars tag.data)))) &&
  exc.all (fun tag =>
    !hasTag db r.id (ascii_lowercase (String.mk (trimChars tag.data))))

/-- `LIMIT ? OFFSET ?`. -/
def paginate {α : Type} (limit offset : Nat) (l : List α) : List α :=
  (l.drop offset).take limit

/-- `ORDER BY images.id DESC`. -/
def idDescLE (a b : ImageRow) : Bool := decide (b.id ≤ a.id)

/-- `query_images_porter` (database.rs 1610-1686).  An empty sanitized
query short-circuits to no rows; otherwise rows joined against the porter
index are filtered by MATCH and the tag clauses.  With a query the SQL
orders by `images_fts.rank` (bm25, computed inside SQLite); the rank order
is not modelled and the match set is kept in table order, which no
statement below depends on. -/
def query_images_porter (db : Db) (query : Option String)
    (inc exc : List String) (limit offset : Nat) : List ImageRow :=
  match query with
  | some q =>
    if sanitize_fts_query q = "" then []
    else paginate limit offset (db.images.filter (fun r =>
      porterMatch r (sanitize_parts q) && tagFilterOk db r inc exc))
  | none =>
    paginate limit offset (sortRows idDescLE
      (db.images.filter (fun r => tagFilterOk db r inc exc)))

/-- `query_images_trigram` (database.rs 1688-1754). -/
def query_images_trigram (db : Db) (q : String) (inc exc : List String)
    (limit offset : Nat) : List ImageRow :=
  let sanitized := String.mk (trimChars q.data)
  if sanitized = "" || !contains_search_token sanitized then []
  else paginate limit offset (sortRows idDescLE
    (db.images.filter (fun r =>
      trigramMatch r sanitized && tagFilterOk db r inc exc)))

/-- `query_images` (database.rs 1586-1608): porter first; when it returns
no rows and the query is present and not blank, the trigram pass. -/
def query_images (db : Db) (query : Option String) (inc exc : List String)
    (limit offset : Nat) : List ImageRow :=
  let porter_results := query_images_porter db query inc exc limit offset
  if porter_results = [] then
    match query with
    | none => porter_results
    | some q =>
      if String.mk (trimChars q.data) = "" then porter_results
      else query_images_trigram db q inc exc limit offset
  else porter_results

/-- `search_trigram` (database.rs 647-649). -/
def search_trigram (db : Db) (q : String) (limit offset : Nat) :
    List ImageRow :=
  query_images_trigram db q [] [] limit offset

/-- `search` (database.rs 637-644). -/
def search (db : Db) (q : String) (limit offset : Nat) : List ImageRow :=
  let porter_results := query_images db (some q) [] [] limit offset
  if porter_results = [] then search_trigram db q limit offset
  else porter_results

/-- `search_cursor_porter` (database.rs 803-922): keyset page over the
porter match set; `flt` stands for the generation-type/model WHERE
conjuncts as in `get_images_cursor`. -/
def search_cursor_porter (db : Db) (q : String) (cursor : Option Cursor)
    (limit : Nat) (sort_by : Option String) (flt : ImageRow → Bool) :
    CursorPageL :=
  if sanitize_fts_query q = "" then { items := [], next_cursor := none }
  else
    let sort := SortConfig.from_str (sort_by.getD "newest")
    let rows := db.images.filter (fun r =>
      porterMatch r (sanitize_parts q) && flt r &&
        (match cursor with
         | some cur => cursorPred sort cur r
         | none => true))
    let items := (sortRows (rowLE sort) rows).take limit
    { items := items, next_cursor := items.getLast?.map (nextCursorFor sort) }

/-- `search_cursor_trigram` (database.rs 924-1050). -/
def search_cursor_trigram (db : Db) (q : String) (cursor : Option Cursor)
    (limit : Nat) (sort_by : Option String) (flt : ImageRow → Bool) :
    CursorPageL :=
  let sanitized := String.mk (trimChars q.data)
  if sanitized = "" || !contains_search_token sanitized then
    { items := [], next_cursor := none }
  else
    let sort := SortConfig.from_str (sort_by.getD "newest")
    let rows := db.images.filter (fun r =>
      trigramMatch r sanitized && flt r &&
        (match cursor with
         | some cur => cursorPred sort cur r
         | none => true))
    let items := (sortRows (rowLE sort) rows).take limit
    { items := items, next_cursor := items.getLast?.map (nextCursorFor sort) }

/-- `search_cursor` (database.rs 770-801): porter page first, trigram page
iff it came back empty. -/
def search_cursor (db : Db) (q : String) (cursor : Option Cursor)
    (limit : Nat) (sort_by : Option String) (flt : ImageRow → Bool) :
    CursorPageL :=
  let porter := search_cursor_porter db q cursor limit sort_by flt
  if porter.items = [] then search_cursor_trigram db q cursor limit sort_by flt
  else porter

theorem ftsUnquoteBody_esc : ∀ (l : List Char),
    ftsUnquoteBody (escQuotes l ++ ['"']) = some l := by
  intro l
  induction l with
  | nil => rfl
  | cons c rest ih =>
    by_cases hc : c = '"'
    · subst hc
      simp [escQuotes, ftsUnquoteBody, ih]
    · have hstep : escQuotes (c :: rest) ++ ['"'] =
        c :: (escQuotes rest ++ ['"']) := by
        simp [escQuotes, hc]
      rw [hstep]
      unfold ftsUnquoteBody
      rw [if_neg hc, ih]
      rfl

theorem take_ne_nil_of_pos {α : Type} {l : List α} {n : Nat}
    (hl : l ≠ []) (hn : 0 < n) : l.take n ≠ [] := by
  cases l with
  | nil => exact absurd rfl hl
  | cons a l =>
    cases n with
    | zero => omega
    | succ n => simp

/-- C3: the query runs against the ranked porter index first and the
trigram pass is consulted exactly when the ranked pass returns zero rows;
the trigram MATCH expression embeds the trimmed query as a single quoted
literal phrase (internal double quotes doubled, here witnessed by the FTS
string-literal parser recovering the exact query); consequently a query
that porter-matches some row (with a nonempty sanitized form, first page)
resolves through the ranked path only, a query that porter-matches no row
resolves to the trigram pass, whose substring semantics make it nonempty
whenever some row contains the trimmed query; and `search_cursor` falls
back to the trigram page under exactly the same zero-row condition. -/
theorem claim_C3_search_fallback (db : Db) (q : String) (limit offset : Nat)
    (cursor : Option Cursor) (sort_by : Option String)
    (flt : ImageRow → Bool) :
    (query_images_porter db (some q) [] [] limit offset ≠ [] →
      search db q limit offset =
        query_images_porter db (some q) [] [] limit offset) ∧
    (query_images_porter db (some q) [] [] limit offset = [] →
      search db q limit offset = search_trigram db q limit offset) ∧
    ftsPhraseParse (trigram_match_expr (String.mk (trimChars q.data))) =
      some (String.mk (trimChars q.data)) ∧
    ((∀ r ∈ db.images, porterMatch r (sanitize_parts q) = false) →
      search db q limit offset = search_trigram db q limit offset) ∧
    (offset = 0 → 0 < limit → sanitize_fts_query q ≠ "" →
      (∃ r ∈ db.images, porterMatch r (sanitize_parts q) = true) →
      search db q limit offset =
        query_images_porter db (some q) [] [] limit offset ∧
      query_images_porter db (some q) [] [] limit offset ≠ []) ∧
    (offset = 0 → 0 < limit →
      (∀ r ∈ db.images, porterMatch r (sanitize_parts q) = false) →
      contains_search_token (String.mk (trimChars q.data)) = true →
      (∃ r ∈ db.images,
        trigramMatch r (String.mk (trimChars q.data)) = true) →
      search db q limit offset = search_trigram db q limit offset ∧
        search_trigram db q limit offset ≠ []) ∧
    ((search_cursor_porter db q cursor limit sort_by flt).items ≠ [] →
      search_cursor db q cursor limit sort_by flt =
        search_cursor_porter db q cursor limit sort_by flt) ∧
    ((search_cursor_porter db q cursor limit sort_by flt).items = [] →
      search_cursor db q cursor limit sort_by flt =
        search_cursor_trigram db q cursor limit sort_by flt) := by
  have hr1 : query_images_porter db (some q) [] [] limit offset ≠ [] →
      search db q limit offset =
        query_images_porter db (some q) [] [] limit offset := by
    intro hp
    have hqi : query_images db (some q) [] [] limit offset =
        query_images_porter db (some q) [] [] limit offset := by
      simp only [query_images]
      rw [if_neg hp]
    simp only [search]
    rw [hqi, if_neg hp]
  have hfb : query_images_porter db (some q) [] [] limit offset = [] →
      search db q limit offset = search_trigram db q limit offset := by
    intro hp
    by_cases htrim : String.mk (trimChars q.data) = ""
    · have hqi : query_images db (some q) [] [] limit offset = [] := by
        simp only [query_images]
        rw [if_pos hp, if_pos htrim, hp]
      simp only [search]
      rw [hqi, if_pos rfl]
    · have hqi : query_images db (some q) [] [] limit offset =
          query_images_trigram db q [] [] limit offset := by
        simp only [query_images]
        rw [if_pos hp, if_neg htrim]
      simp only [search]
      rw [hqi]
      by_cases htri : query_images_trigram db q [] [] limit offset = []
      · rw [if_pos htri]
      · rw [if_neg htri]
        rfl
  have hphrase :
      ftsPhraseParse (trigram_match_expr (String.mk (trimChars q.data))) =
        some (String.mk (trimChars q.data)) := by
    show (ftsUnquoteBody (escQuotes (trimChars q.data) ++ ['"'])).map
        String.mk = some (String.mk (trimChars q.data))
    rw [ftsUnquoteBody_esc]
    rfl
  have hporter_nil :
      (∀ r ∈ db.images, porterMatch r (sanitize_parts q) = false) →
        query_images_porter db (some q) [] [] limit offset = [] := by
    intro hall
    simp only [query_images_porter]
    by_cases hs : sanitize_fts_query q = ""
    · rw [if_pos hs]
    · rw [if_neg hs]
      have hfilter : db.images.filter (fun r =>
          porterMatch r (sanitize_parts q) && tagFilterOk db r [] []) = [] := by
        rw [List.eq_nil_iff_forall_not_mem]
        intro x hx
        obtain ⟨hximg, hxpred⟩ := List.mem_filter.mp hx
        rw [Bool.and_eq_true] at hxpred
        exact Bool.noConfusion ((hall x hximg).symm.trans hxpred.1)
      rw [hfilter]
      simp [paginate]
  refine ⟨hr1, hfb, hphrase, fun hall => hfb (hporter_nil hall),
    ?_, ?_, ?_, ?_⟩
  · rintro rfl hlim hsan ⟨r, hr, hmatch⟩
    have hmem : r ∈ db.images.filter (fun x =>
        porterMatch x (sanitize_parts q) && tagFilterOk db x [] []) :=
      List.mem_filter.mpr ⟨hr, by
        rw [Bool.and_eq_true]
        exact ⟨hmatch, by simp [tagFilterOk]⟩⟩
    have hpne : query_images_porter db (some q) [] [] limit 0 ≠ [] := by
      simp only [query_images_porter]
      rw [if_neg hsan]
      have hpag : paginate limit 0 (db.images.filter (fun x =>
          porterMatch x (sanitize_parts q) && tagFilterOk db x [] [])) =
        (db.images.filter (fun x =>
          porterMatch x (sanitize_parts q) && tagFilterOk db x [] [])).take
            limit := by
        simp [paginate]
      rw [hpag]
      exact take_ne_nil_of_pos (List.ne_nil_of_mem hmem) hlim
    exact ⟨hr1 hpne, hpne⟩
  · rintro rfl hlim hall hcontains ⟨r, hr, hmatch⟩
    have hne0 : String.mk (trimChars q.data) ≠ "" := by
      intro h0
      rw [h0] at hcontains
      exact absurd hcontains (by decide)
    refine ⟨hfb (hporter_nil hall), ?_⟩
    simp only [search_trigram, query_images_trigram]
    have hcond : (decide (String.mk (trimChars q.data) = "") ||
        !contains_search_token (String.mk (trimChars q.data))) = false := by
      rw [decide_eq_false hne0, hcontains]
      rfl
    rw [if_neg (by simp [hcond])]
    have hmem : r ∈ db.images.filter (fun x =>
        trigramMatch x (String.mk (trimChars q.data)) &&
          tagFilterOk db x [] []) :=
      List.mem_filter.mpr ⟨hr, by
        rw [Bool.and_eq_true]
        exact ⟨hmatch, by simp [tagFilterOk]⟩⟩
    have hsne : sortRows idDescLE (db.images.filter (fun x =>
        trigramMatch x (String.mk (trimChars q.data)) &&
          tagFilterOk db x [] [])) ≠ [] := by
      intro h0
      have hlen := (sortRows_perm idDescLE (db.images.filter (fun x =>
        trigramMatch x (String.mk (trimChars q.data)) &&
          tagFilterOk db x [] []))).length_eq
      rw [h0] at hlen
      simp only [List.length_nil] at hlen
      exact absurd (List.length_eq_zero.mp hlen.symm)
        (List.ne_nil_of_mem hmem)
    have hpag : paginate limit 0 (sortRows idDescLE (db.images.filter (fun x =>
        trigramMatch x (String.mk (trimChars q.data)) &&
          tagFilterOk db x [] []))) =
      (sortRows idDescLE (db.images.filter (fun x =>
        trigramMatch x (String.mk (trimChars q.data)) &&
          tagFilterOk db x [] []))).take limit := by
      simp [paginate]
    rw [hpag]
    exact take_ne_nil_of_pos hsne hlim
  · intro hp
    simp only [search_cursor]
    rw [if_neg hp]
  · intro hp
    simp only [search_cursor]
    rw [if_pos hp]

/-- Witness for C2: a three-row table sorted by `name_asc` with page size 2;
the first page is the rows named a.png and b.png and its cursor points past
b.png (id 3). -/
theorem claim_C2_witness :
    CursorPaginationOk [w2r1, w2r2, w2r3] 2 (some "name_asc") (fun _ => true)
      { id := some 3, sort := some "b.png" } w2r3 :=
  claim_C2_cursor_pagination [w2r1, w2r2, w2r3] 2 (some "name_asc")
    (fun _ => true) { id := some 3, sort := some "b.png" } w2r3
    (by decide) (by decide) (by decide)

end Forge
